import Mathlib

/-!
Verification development for the discourse click-to-edit plugin
(click-to-edit handler in `disable-discourse-composer-scroll-sync.js` and the
connector component `click-to-edit.js`).

The JavaScript text-processing functions are embedded shallowly over
`List Char` (a JS string).  Regular-expression global replacements are
translated into explicit left-to-right scanners (a JS `String.replace` with a
`g` flag scans the string once, from the left, restarting after each match),
driven by a fuel argument that is instantiated with the string length (every
match consumes at least one character, so the fuel never runs out on the
inputs the original code can see).  Lowercasing is modelled for ASCII: the
claims under study only exercise ASCII data, and the extended-Latin ranges
kept by `normalizeText` are closed under JS lowercasing.
-/

/-- Strings of the JavaScript program, as lists of characters. -/
abbrev Str := List Char

/-- JS regex class whitespace, restricted to the ASCII whitespace characters
(the `\s` class of the patterns in the source). -/
def isWsChar (c : Char) : Bool :=
  c == ' ' || c == '\t' || c == '\n' || c == '\r' || c == '\x0b' || c == '\x0c'

/-- JS regex class `\w`: ASCII letters, digits and underscore. -/
def isWordChar (c : Char) : Bool :=
  ('a' ≤ c && c ≤ 'z') || ('A' ≤ c && c ≤ 'Z') || ('0' ≤ c && c ≤ '9') || c == '_'

/-- Characters kept by `normalizeText`'s removal step: the class
`[\w\sÀ-ɏḀ-ỿ]` of the source. -/
def isKeptChar (c : Char) : Bool :=
  isWordChar c || isWsChar c ||
    (0xC0 ≤ c.toNat && c.toNat ≤ 0x24F) || (0x1E00 ≤ c.toNat && c.toNat ≤ 0x1EFF)

/-- ASCII lowercasing (JS `toLowerCase` restricted to ASCII). -/
def jsToLower (c : Char) : Char :=
  if 65 ≤ c.toNat && c.toNat ≤ 90 then Char.ofNat (c.toNat + 32) else c

/-- Left trim: JS `trim` drops leading whitespace. -/
def trimLeft (l : Str) : Str := l.dropWhile isWsChar

/-- Right trim: JS `trim` drops trailing whitespace. -/
def trimRight (l : Str) : Str := (l.reverse.dropWhile isWsChar).reverse

/-- JS `String.prototype.trim`. -/
def jsTrim (l : Str) : Str := trimRight (trimLeft l)

/-- One pass of the global replacement `\s+` → single space
(`normalizeText`'s whitespace collapsing).  The boolean records whether the
previous character was whitespace (in which case the current run has already
emitted its space). -/
def collapseAux : Bool → Str → Str
  | _, [] => []
  | prevWs, c :: r =>
    if isWsChar c then
      if prevWs then collapseAux true r else ' ' :: collapseAux true r
    else c :: collapseAux false r

/-- The whole-string whitespace collapse `replace(/\s+/g, ' ')`. -/
def collapseWs (l : Str) : Str := collapseAux false l

/-- The source's `normalizeText`: lowercase, collapse whitespace runs to one
space, drop characters outside the kept class, trim.  `if (!text) return ''`
is the empty-string guard. -/
def normalizeText (text : Str) : Str :=
  if text = [] then []
  else jsTrim ((collapseWs (text.map jsToLower)).filter isKeptChar)

/-- JS `String.prototype.includes`: `strContains hay needle` is true when
`needle` occurs contiguously inside `hay`. -/
def strContains (hay needle : Str) : Bool :=
  hay.tails.any (fun t => needle.isPrefixOf t)

/-- JS `String.prototype.split` with a single-character separator. -/
def splitOnChar (sep : Char) : Str → List Str
  | [] => [[]]
  | c :: r =>
    if c == sep then [] :: splitOnChar sep r
    else
      match splitOnChar sep r with
      | [] => [[c]]
      | h :: t => (c :: h) :: t

/-- Buffer lines: `value.split("\n")`. -/
def splitLines (v : Str) : List Str := splitOnChar '\n' v

/-!
Global regex replacement scanners.  A matcher `try` inspects the string at the
current position and returns `some (emitted, rest)` on a match (the text the
replacement emits, e.g. a captured group, and the remainder of the string
after the match) or `none`.  `replAll` is the JS `replace(/…/g, …)` scan.
-/

/-- One left-to-right global-replace scan, with fuel. -/
def replAll (tr : Str → Option (Str × Str)) : Nat → Str → Str
  | 0, l => l
  | _ + 1, [] => []
  | n + 1, c :: rest =>
    match tr (c :: rest) with
    | some (e, r) => e ++ replAll tr n r
    | none => c :: replAll tr n rest

/-- Run a global replacement over a whole string (fuel = length suffices
because every match consumes at least one character). -/
def runRepl (tr : Str → Option (Str × Str)) (l : Str) : Str :=
  replAll tr l.length l

/-- Tag-name characters of the BBCode pattern class `[\w-]`. -/
def isTagChar (c : Char) : Bool := isWordChar c || c == '-'

/-- Matcher for `PATTERNS.bbcode`, the regex `\[\/?[\w-]+(?:=[^\]]*)?]`
(replaced by the empty string). -/
def tryBBCode (l : Str) : Option (Str × Str) :=
  match l with
  | c :: r =>
    if c = '[' then
      let r1 := if r.head? = some '/' then r.tail else r
      let name := r1.takeWhile isTagChar
      if name = [] then none
      else
        match r1.drop name.length with
        | ']' :: rest => some ([], rest)
        | '=' :: r2 =>
          let v := r2.takeWhile (fun c => !(c == ']'))
          match r2.drop v.length with
          | ']' :: rest => some ([], rest)
          | _ => none
        | _ => none
    else none
  | [] => none

/-- Matcher for a delimited pair such as `PATTERNS.mdBold`
(`\*\*([^*]+)\*\*` → `$1`): two copies of `d`, a nonempty run without `d`,
two copies of `d`; emits the run. -/
def tryPair2 (d : Char) (l : Str) : Option (Str × Str) :=
  match l with
  | c1 :: c2 :: r =>
    if c1 = d && c2 = d then
      let run := r.takeWhile (fun c => !(c == d))
      if run = [] then none
      else
        match r.drop run.length with
        | e1 :: e2 :: rest => if e1 = d && e2 = d then some (run, rest) else none
        | _ => none
    else none
  | _ => none

/-- Matcher for a single-delimiter pair such as `PATTERNS.mdItalic`
(`\*([^*]+)\*` → `$1`). -/
def tryPair1 (d : Char) (l : Str) : Option (Str × Str) :=
  match l with
  | c :: r =>
    if c = d then
      let run := r.takeWhile (fun c => !(c == d))
      if run = [] then none
      else
        match r.drop run.length with
        | e :: rest => if e = d then some (run, rest) else none
        | _ => none
    else none
  | [] => none

/-- Matcher for `PATTERNS.mdLink` (`\[([^\]]*)\]\([^)]+\)` → `$1`), starting
from the `[`; used for `mdImage` as well after its leading `!`. -/
def tryLinkBody (l : Str) : Option (Str × Str) :=
  match l with
  | c :: r =>
    if c = '[' then
      let label := r.takeWhile (fun c => !(c == ']'))
      match r.drop label.length with
      | ']' :: '(' :: r2 =>
        let url := r2.takeWhile (fun c => !(c == ')'))
        if url = [] then none
        else
          match r2.drop url.length with
          | ')' :: rest => some (label, rest)
          | _ => none
      | _ => none
    else none
  | [] => none

/-- Matcher for `PATTERNS.mdImage` (`!\[([^\]]*)\]\([^)]+\)` → `$1`). -/
def tryMdImage (l : Str) : Option (Str × Str) :=
  match l with
  | c :: r => if c = '!' then tryLinkBody r else none
  | [] => none

/-- Matcher for `PATTERNS.mdFootnote` (`\^\[([^\]]+)\]` → `$1`). -/
def tryMdFootnote (l : Str) : Option (Str × Str) :=
  match l with
  | c :: r =>
    if c = '^' then
      match r with
      | b :: r2 =>
        if b = '[' then
          let run := r2.takeWhile (fun c => !(c == ']'))
          if run = [] then none
          else
            match r2.drop run.length with
            | ']' :: rest => some (run, rest)
            | _ => none
        else none
      | [] => none
    else none
  | [] => none

/-- Matcher for `PATTERNS.htmlTag` (`<\/?[\w-]+(?:\s+[^>]*)?\/?>`, removed).
After the tag name the regex either closes immediately (`>` or `/>`), or, on
whitespace, swallows everything up to the first `>`. -/
def tryHtmlTag (l : Str) : Option (Str × Str) :=
  match l with
  | c :: r =>
    if c = '<' then
      let r1 := if r.head? = some '/' then r.tail else r
      let name := r1.takeWhile isTagChar
      if name = [] then none
      else
        match r1.drop name.length with
        | '>' :: rest => some ([], rest)
        | '/' :: '>' :: rest => some ([], rest)
        | d :: r2 =>
          if isWsChar d then
            let body := r2.takeWhile (fun c => !(c == '>'))
            match r2.drop body.length with
            | '>' :: rest => some ([], rest)
            | _ => none
          else none
        | [] => none
    else none
  | [] => none

/-- The literal `upload://` of `PATTERNS.discourseUpload`. -/
def uploadLit : Str := "upload://".toList

/-- Matcher for `PATTERNS.discourseUpload` (`upload:\/\/[\w.]+`, removed). -/
def tryUpload (l : Str) : Option (Str × Str) :=
  if l.take 9 = uploadLit then
    let r := l.drop 9
    let run := r.takeWhile (fun c => isWordChar c || c == '.')
    if run = [] then none else some ([], r.drop run.length)
  else none

/-- Matcher for `PATTERNS.discourseDate` (`\[date=[^\]]+\]`, case-insensitive,
removed). -/
def tryDate (l : Str) : Option (Str × Str) :=
  match l with
  | c0 :: c1 :: c2 :: c3 :: c4 :: c5 :: r =>
    if c0 = '[' && jsToLower c1 = 'd' && jsToLower c2 = 'a' && jsToLower c3 = 't'
        && jsToLower c4 = 'e' && c5 = '=' then
      let run := r.takeWhile (fun c => !(c == ']'))
      if run = [] then none
      else
        match r.drop run.length with
        | ']' :: rest => some ([], rest)
        | _ => none
    else none
  | _ => none

/-!
Line-anchored passes (`m`-flag regexes anchored with `^`).  A JS `^` with the
`m` flag matches at position 0 and right after every newline; after a match
the scan continues from the end of the match, whose anchoring state depends on
the last consumed character.  A matcher returns the remainder after the match
together with the anchoring state at that remainder.
-/

/-- Scan for a `^`-anchored global replacement (the replacement of the four
line-anchored patterns of `stripAllSyntax` is empty). -/
def lineAnchor (tr : Str → Option (Str × Bool)) : Nat → Bool → Str → Str
  | 0, _, l => l
  | _ + 1, _, [] => []
  | n + 1, atStart, c :: rest =>
    if atStart then
      match tr (c :: rest) with
      | some (r, m) => lineAnchor tr n m r
      | none => c :: lineAnchor tr n (c == '\n') rest
    else c :: lineAnchor tr n (c == '\n') rest

/-- Run a line-anchored global replacement over a whole string. -/
def runLineAnchor (tr : Str → Option (Str × Bool)) (l : Str) : Str :=
  lineAnchor tr l.length true l

/-- Anchoring state after consuming a whitespace run: `^m` matches next iff
the last character consumed was a newline. -/
def wsRunEndsNl (ws : Str) : Bool := ws.getLast? = some '\n'

/-- Matcher for `PATTERNS.mdHeading` (`^#{1,6}\s+`, removed): one to six `#`
followed by at least one whitespace character (the greedy `\s+` swallows the
whole whitespace run). -/
def tryMdHeading (l : Str) : Option (Str × Bool) :=
  let hs := l.takeWhile (fun c => c == '#')
  if hs.length < 1 || 6 < hs.length then none
  else
    let r1 := l.drop hs.length
    let ws := r1.takeWhile isWsChar
    if ws = [] then none else some (r1.drop ws.length, wsRunEndsNl ws)

/-- Matcher for `PATTERNS.mdQuote` (`^>\s*`, removed). -/
def tryMdQuote (l : Str) : Option (Str × Bool) :=
  match l with
  | c :: r =>
    if c = '>' then
      let ws := r.takeWhile isWsChar
      some (r.drop ws.length, wsRunEndsNl ws)
    else none
  | [] => none

/-- Matcher for `PATTERNS.mdUnorderedList` (`^[\*\-\+]\s+`, removed). -/
def tryMdUList (l : Str) : Option (Str × Bool) :=
  match l with
  | c :: r =>
    if c = '*' || c = '-' || c = '+' then
      let ws := r.takeWhile isWsChar
      if ws = [] then none else some (r.drop ws.length, wsRunEndsNl ws)
    else none
  | [] => none

/-- Matcher for `PATTERNS.mdOrderedList` (`^\d+\.\s+`, removed). -/
def tryMdOList (l : Str) : Option (Str × Bool) :=
  let ds := l.takeWhile (fun c => '0' ≤ c && c ≤ '9')
  if ds = [] then none
  else
    match l.drop ds.length with
    | c :: r =>
      if c = '.' then
        let ws := r.takeWhile isWsChar
        if ws = [] then none else some (r.drop ws.length, wsRunEndsNl ws)
      else none
    | [] => none

/-- The `result.replace(/^\||\|$/g, '')` step: without the `m` flag this only
removes a pipe at the very start and a pipe at the very end of the string. -/
def stripEdgePipes (l : Str) : Str :=
  let l1 := if l.head? = some '|' then l.tail else l
  if l1.getLast? = some '|' then l1.dropLast else l1

/-- The source's `stripAllSyntax`: the regex replacement passes applied in
source order, then the table-pipe cleanup, then a final trim.  The dead-code
guard `if (!text) return ''` is kept. -/
def stripAllSyntax (text : Str) : Str :=
  if text = [] then []
  else
    let r := runRepl tryBBCode text
    let r := runRepl (tryPair2 '*') r
    let r := runRepl (tryPair1 '*') r
    let r := runRepl (tryPair2 '~') r
    let r := runRepl (tryPair1 (Char.ofNat 96)) r
    let r := runRepl tryLinkBody r
    let r := runRepl tryMdImage r
    let r := runLineAnchor tryMdHeading r
    let r := runLineAnchor tryMdQuote r
    let r := runLineAnchor tryMdUList r
    let r := runLineAnchor tryMdOList r
    let r := runRepl tryMdFootnote r
    let r := runRepl tryHtmlTag r
    let r := runRepl tryUpload r
    let r := runRepl tryDate r
    let r := stripEdgePipes r
    let r := r.map (fun c => if c == '|' then ' ' else c)
    jsTrim r

/-- JS `split(' ')` (single-space separator; empty pieces are kept, but the
callers filter them out by length). -/
def jsSplitSpace (l : Str) : List Str := splitOnChar ' ' l

/-- Words of length strictly greater than 2, as filtered by `fuzzyMatch` and
`getMatchScore`. -/
def longWords (l : Str) : List Str := (jsSplitSpace l).filter (fun w => 2 < w.length)

/-- Number of words of `ws1` that contain, or are contained in, some word of
`ws2` (the inner loop shared by `fuzzyMatch` and `getMatchScore`). -/
def countWordHits (ws1 ws2 : List Str) : Nat :=
  ws1.countP (fun w => ws2.any (fun w2 => strContains w2 w || strContains w w2))

/-- The source's `fuzzyMatch`: word-overlap ratio over the shorter string's
words, accepted at one half. -/
def fuzzyMatch (str1 str2 : Str) : Bool :=
  if str1 = [] || str2 = [] then false
  else
    let shorter := if str1.length < str2.length then str1 else str2
    let longer := if str1.length < str2.length then str2 else str1
    if shorter.length < 3 then shorter == longer
    else
      let words1 := longWords shorter
      let words2 := longWords longer
      if words1 = [] then false
      else decide ((countWordHits words1 words2 : ℚ) / (words1.length : ℚ) ≥ 1 / 2)

/-- The source's `getMatchScore` (the MatchScorer): exact → 1, containment →
length ratio, otherwise word-overlap count over the first argument's words
divided by the larger word count. -/
def getMatchScore (str1 str2 : Str) : ℚ :=
  if str1 = [] || str2 = [] then 0
  else if str1 = str2 then 1
  else if strContains str1 str2 || strContains str2 str1 then
    ((min str1.length str2.length : Nat) : ℚ) / ((max str1.length str2.length : Nat) : ℚ)
  else
    let words1 := longWords str1
    let words2 := longWords str2
    if words1 = [] || words2 = [] then 0
    else ((countWordHits words1 words2 : Nat) : ℚ) /
      ((max words1.length words2.length : Nat) : ℚ)

/-- Modelled from the spec (§4.4 case 3), for comparison with the source's
`getMatchScore`: the fuzzy tier with the iteration driven by the shorter
side's word set, as the specification describes it. -/
def specFuzzyScore (a b : Str) : ℚ :=
  let shorter := if a.length ≤ b.length then a else b
  let other := if a.length ≤ b.length then b else a
  let ws := longWords shorter
  let wo := longWords other
  if ws = [] || wo = [] then 0
  else ((countWordHits ws wo : Nat) : ℚ) / ((max ws.length wo.length : Nat) : ℚ)

/-- Normalised, syntax-stripped form of a buffer line, as computed inside each
pass of `findLineByContent`. -/
def lineNormOf (l : Str) : Str := normalizeText (stripAllSyntax l)

/-- Pass-1 test of `findLineByContent` (exact normalized equality, under the
`normalizedLine && normalizedTarget` truthiness guard). -/
def exactPred (tgt l : Str) : Bool :=
  let nl := lineNormOf l
  !(nl.isEmpty) && !(tgt.isEmpty) && nl == tgt

/-- Pass-2 test of `findLineByContent` (substring containment either way). -/
def containsPred (tgt l : Str) : Bool :=
  let nl := lineNormOf l
  !(nl.isEmpty) && !(tgt.isEmpty) && (strContains nl tgt || strContains tgt nl)

/-- Pass-3 test of `findLineByContent` (fuzzy word overlap). -/
def fuzzyPred (tgt l : Str) : Bool :=
  let nl := lineNormOf l
  !(nl.isEmpty) && !(tgt.isEmpty) && fuzzyMatch nl tgt

/-- One `for (let i = 0; …) if (test) return i` scan over the buffer lines. -/
def passLoop (p : Str → Bool) : Nat → List Str → Option Nat
  | _, [] => none
  | i, l :: r => if p l then some i else passLoop p (i + 1) r

/-- The source's `findLineByContent`: the clicked node's text (already the
`textContent` of the DOM node) is trimmed and normalized, then the buffer
lines are scanned in three passes — exact, contains, fuzzy — each returning
the first matching line index.  The `!element || !this.textArea` DOM guards
are outside this pure core; an absent text is the empty string. -/
def findLineByContent (elementText taValue : Str) : Option Nat :=
  let et := jsTrim elementText
  if et = [] then none
  else
    let lines := splitLines taValue
    let tgt := normalizeText et
    match passLoop (exactPred tgt) 0 lines with
    | some i => some i
    | none =>
      match passLoop (containsPred tgt) 0 lines with
      | some i => some i
      | none => passLoop (fuzzyPred tgt) 0 lines

/-- Indices (in document order) of the preview nodes annotated with `line`:
the `querySelectorAll('[data-ln="line"]')` result of `findElementByLineNumber`.
The preview tree is modelled as the list of its nodes in document order, each
carrying an optional `data-ln` annotation. -/
def qsaGo (line : Nat) : Nat → List (Option Nat) → List Nat
  | _, [] => []
  | i, a :: r => if a = some line then i :: qsaGo line (i + 1) r else qsaGo line (i + 1) r

/-- Document-order list of nodes annotated with `line`. -/
def qsaLn (nodes : List (Option Nat)) (line : Nat) : List Nat := qsaGo line 0 nodes

/-- The source's `findElementByLineNumber`: last annotated node for `line`,
else recurse on `line - 1`, stopping at 0; a missing preview wrapper (`none`)
yields no match. -/
def findElementByLineNumber (wrapper : Option (List (Option Nat))) : Nat → Option Nat
  | 0 =>
    match wrapper with
    | none => none
    | some nodes =>
      match (qsaLn nodes 0).getLast? with
      | some i => some i
      | none => none
  | n + 1 =>
    match wrapper with
    | none => none
    | some nodes =>
      match (qsaLn nodes (n + 1)).getLast? with
      | some i => some i
      | none => findElementByLineNumber wrapper n

/-- The unbounded JS recursion of `findElementByLineNumber`, instrumented with
fuel: `none` means the recursion has not terminated within the given number of
calls, `some r` that it returned `r`. -/
def findElemFuel (wrapper : Option (List (Option Nat))) : Nat → Nat → Option (Option Nat)
  | 0, _ => none
  | fuel + 1, line =>
    match wrapper with
    | none => some none
    | some nodes =>
      match (qsaLn nodes line).getLast? with
      | some i => some (some i)
      | none =>
        if line = 0 then some none else findElemFuel wrapper fuel (line - 1)

/-!
`scrollTextAreaToCorrectPosition`'s line-bounds computation.  The JS builds
`newlines = [-1, …positions of "\n"…]`, then
`selStart = newlines[lineIndex] + 1` and
`selEnd = newlines[lineIndex + 1] || value.length`; an out-of-range read is
`undefined` (modelled as `none`, `undefined + 1` being `NaN`), and the `||`
falls through to the buffer length on any falsy value — including the
number `0`.
-/

/-- The `newlines` array: `-1` followed by the newline offsets of the buffer. -/
def jsNewlinePositions (v : Str) : List Int :=
  -1 :: ((List.range v.length).filter (fun i => v.get? i = some '\n')).map (fun i => (i : Int))

/-- `selStart` of `scrollTextAreaToCorrectPosition` (`none` models the `NaN`
produced by an out-of-range line index). -/
def lineBoundsStart (v : Str) (lineIndex : Nat) : Option Int :=
  ((jsNewlinePositions v).get? lineIndex).map (· + 1)

/-- `selEnd` of `scrollTextAreaToCorrectPosition`: the `||` makes any falsy
entry — `undefined` or the offset `0` — fall back to the buffer length. -/
def lineBoundsEnd (v : Str) (lineIndex : Nat) : Int :=
  match (jsNewlinePositions v).get? (lineIndex + 1) with
  | some p => if p = 0 then (v.length : Int) else p
  | none => (v.length : Int)

/-!
The stateful controller (`ClickToEditHandler` of the site-wide initializer).
The DOM is externalized: presence of the cached elements is tracked by
booleans, the preview tree by its annotation list, and the readonly DOM
queries that depend on untracked rendering structure
(`_findPreviewElementForDetailsSyntax`, `findElementByContent`,
`findElementBySpecialSyntax`, `getOffsetTopUntil`) by oracle fields — they are
pure queries in the source, with no observable side effect.  Nodes are
identified by numbers; the CSS rule written by
`updateActiveElementCSSStyleRule` is tracked as the identity of the
highlighted node together with a count of highlight-apply effects.
-/

structure Ctrl where
  destroyed : Bool
  textAreaPresent : Bool
  previewWrapperPresent : Bool
  previewPresent : Bool
  styleRulePresent : Bool
  taValue : Str
  selStart : Nat
  previewNodes : List (Option Nat)
  previewClientHeight : Nat
  minHeightSet : Bool
  previewScrollTop : Int
  lastHighlighted : Option Nat
  currentRule : Option Nat
  applyCount : Nat
  scrollTimerPending : Bool
  highlightTimerPending : Option Nat
  resolveDetails : Str → Nat → Option Nat
  resolveByContent : Str → Nat → Option Nat
  resolveSpecial : Str → Nat → Option Nat
  offsetOf : Nat → Int

/-- The source's `getLineText` (`lines[lineNumber] || ''`). -/
def getLineText (v : Str) (lineNumber : Nat) : Str :=
  ((splitLines v).get? lineNumber).getD []

/-- The source's `updateActiveElementCSSStyleRule` (site-wide handler): guard
on a missing style element, the destroyed flag and a missing node; skip if the
node equals the last highlighted one; otherwise apply the highlight. -/
def updateActiveElementCSSStyleRule (node : Option Nat) (s : Ctrl) : Ctrl :=
  if !s.styleRulePresent || s.destroyed || node = none then s
  else if s.lastHighlighted = node then s
  else { s with lastHighlighted := node, currentRule := node,
                applyCount := s.applyCount + 1 }

/-- The source's `scrollPreviewToElement`: center the element in the preview
wrapper, clamped at 0. -/
def scrollPreviewToElement (el : Option Nat) (s : Ctrl) : Ctrl :=
  match el with
  | none => s
  | some e =>
    if !s.previewWrapperPresent then s
    else { s with previewScrollTop := max 0 (s.offsetOf e - (s.previewClientHeight / 2 : Nat)) }

/-- The source's `_syncEditorToPreview`: guard, min-height pinning, current
line computation, the four-step element resolution, then the debounced
highlight scheduling and the preview scroll. -/
def syncEditorToPreview (s : Ctrl) : Ctrl :=
  if s.destroyed || !s.textAreaPresent || !s.previewWrapperPresent then s
  else
    let s1 := if s.previewPresent then { s with minHeightSet := true } else s
    let lineNumber := (splitLines (s1.taValue.take s1.selStart)).length - 1
    let currentLineText := getLineText s1.taValue lineNumber
    let pe0 := s1.resolveDetails currentLineText lineNumber
    let pe1 := match pe0 with
      | some e => some e
      | none => findElementByLineNumber (some s1.previewNodes) lineNumber
    let pe2 := match pe1 with
      | some e => some e
      | none => if currentLineText = [] then none
                else s1.resolveByContent currentLineText lineNumber
    let pe3 := match pe2 with
      | some e => some e
      | none => s1.resolveSpecial currentLineText lineNumber
    match pe3 with
    | none => s1
    | some e =>
      scrollPreviewToElement (some e) { s1 with highlightTimerPending := some e }

/-- The source's `_debouncedScrollPreview`: destroyed guard, then (re)arm the
scroll debounce timer. -/
def debouncedScrollPreview (s : Ctrl) : Ctrl :=
  if s.destroyed then s else { s with scrollTimerPending := true }

/-- Firing of the scroll debounce timer (its payload is `_syncEditorToPreview`). -/
def fireScrollTimer (s : Ctrl) : Ctrl := syncEditorToPreview s

/-- Firing of the highlight debounce timer: the scheduled closure calls
`updateActiveElementCSSStyleRule` on the captured element. -/
def fireHighlightTimer (el : Nat) (s : Ctrl) : Ctrl :=
  updateActiveElementCSSStyleRule (some el) s

/-- The source's `_handleEditorInput`. -/
def handleEditorInput (s : Ctrl) : Ctrl := debouncedScrollPreview s

/-- The source's `_handleEditorScroll`. -/
def handleEditorScroll (s : Ctrl) : Ctrl := debouncedScrollPreview s

/-- The navigation keys of `_handleEditorKeyDown`. -/
def keyDownKeys : List String :=
  ["ArrowUp", "ArrowDown", "ArrowLeft", "ArrowRight", "Home", "End",
   "PageUp", "PageDown", "Enter", "Backspace", "Delete"]

/-- The source's `_handleEditorKeyDown`. -/
def handleEditorKeyDown (key : String) (s : Ctrl) : Ctrl :=
  if keyDownKeys.contains key then debouncedScrollPreview s else s

/-- The navigation keys of `_handleEditorKeyUp`. -/
def keyUpKeys : List String :=
  ["ArrowUp", "ArrowDown", "ArrowLeft", "ArrowRight", "Home", "End",
   "PageUp", "PageDown"]

/-- The source's `_handleEditorKeyUp` (syncs immediately, not debounced). -/
def handleEditorKeyUp (key : String) (s : Ctrl) : Ctrl :=
  if keyUpKeys.contains key then syncEditorToPreview s else s

/-- Firing of the `setTimeout` scheduled by `_handleEditorClick`. -/
def fireEditorClickTimeout (s : Ctrl) : Ctrl := syncEditorToPreview s

/-- The source's `destroy`: set the destroyed flag, cancel both timers, detach
the listeners, remove the style element and the cloned textarea, null every
cached reference. -/
def destroy (s : Ctrl) : Ctrl :=
  { s with destroyed := true,
           scrollTimerPending := false,
           highlightTimerPending := none,
           styleRulePresent := false,
           previewPresent := false,
           previewWrapperPresent := false,
           textAreaPresent := false,
           lastHighlighted := none }

/-- The connector component's `updateActiveElementCSSStyleRule`
(`click-to-edit.js` connector): same style-element and teardown guards, but
no comparison against the previously highlighted element — every call that
passes the guard applies the highlight. -/
structure ConnState where
  styleRulePresent : Bool
  isDestroying : Bool
  isDestroyed : Bool
  currentRule : Option Nat
  applyCount : Nat

/-- The connector's highlight update. -/
def connUpdateActive (node : Nat) (s : ConnState) : ConnState :=
  if !s.styleRulePresent || s.isDestroying || s.isDestroyed then s
  else { s with currentRule := some node, applyCount := s.applyCount + 1 }

/-!
Claim-level theorems.
-/

/-- C5 counterexample: `normalizeText` is not idempotent.  On `"a . b"` the
removal of the dot leaves two adjacent spaces that only a second whitespace
collapse merges: one application yields `"a  b"`, two yield `"a b"`. -/
theorem normalizeText_not_idempotent :
    normalizeText (normalizeText "a . b".toList) ≠ normalizeText "a . b".toList := by
  decide

/-- C4 counterexample: the fuzzy tier of `getMatchScore` iterates over the
first argument's words, not the shorter side's.  For `"aaa aab"` vs `"aaab"`
(nonempty, distinct, neither contained in the other) both words of the longer
first argument hit the single word of the shorter one, giving score `1`,
while the spec's shorter-driven iteration can score at most `1/2`. -/
theorem getMatchScore_not_shorter_driven :
    ("aaa aab".toList ≠ ([] : Str)) ∧ ("aaab".toList ≠ ([] : Str)) ∧
    "aaa aab".toList ≠ "aaab".toList ∧
    strContains "aaa aab".toList "aaab".toList = false ∧
    strContains "aaab".toList "aaa aab".toList = false ∧
    getMatchScore "aaa aab".toList "aaab".toList = 1 ∧
    specFuzzyScore "aaa aab".toList "aaab".toList = 1 / 2 := by
  refine ⟨by decide, by decide, by decide, by decide, by decide, ?_, ?_⟩
  · unfold getMatchScore
    rw [if_neg (by decide), if_neg (by decide), if_neg (by decide),
        if_neg (by decide)]
    have h1 : countWordHits (longWords "aaa aab".toList) (longWords "aaab".toList) = 2 := by
      decide
    have h2 : max (longWords "aaa aab".toList).length (longWords "aaab".toList).length = 2 := by
      decide
    rw [h1, h2]
    norm_num
  · have hsel1 : (if "aaa aab".toList.length ≤ "aaab".toList.length
        then "aaa aab".toList else "aaab".toList) = "aaab".toList := by decide
    have hsel2 : (if "aaa aab".toList.length ≤ "aaab".toList.length
        then "aaab".toList else "aaa aab".toList) = "aaa aab".toList := by decide
    unfold specFuzzyScore
    rw [hsel1, hsel2, if_neg (by decide)]
    have h1 : countWordHits (longWords "aaab".toList) (longWords "aaa aab".toList) = 1 := by
      decide
    have h2 : max (longWords "aaab".toList).length (longWords "aaa aab".toList).length = 2 := by
      decide
    rw [h1, h2]
    norm_num

/-- C3 counterexample: `findLineByContent` does not return the line with the
higher MatchScorer score.  The node text `"hello world"` overlaps line 0
(`"hello world and many more tokens beyond"`, score 11/39) and line 1
(`"hello worlds"`, score 11/12); the contains pass returns the first-scanned
line 0 even though line 1 scores higher. -/
theorem findLineByContent_ignores_score :
    findLineByContent "hello world".toList
        "hello world and many more tokens beyond\nhello worlds".toList = some 0 ∧
    getMatchScore (lineNormOf "hello worlds".toList) "hello world".toList >
      getMatchScore (lineNormOf "hello world and many more tokens beyond".toList)
        "hello world".toList := by
  have hA : getMatchScore (lineNormOf "hello worlds".toList) "hello world".toList
      = 11 / 12 := by
    have h0 : lineNormOf "hello worlds".toList = "hello worlds".toList := by decide
    rw [h0]
    unfold getMatchScore
    rw [if_neg (by decide), if_neg (by decide), if_pos (by decide)]
    have h1 : min ("hello worlds".toList).length ("hello world".toList).length = 11 := by
      decide
    have h2 : max ("hello worlds".toList).length ("hello world".toList).length = 12 := by
      decide
    rw [h1, h2]
    norm_num
  have hB : getMatchScore
      (lineNormOf "hello world and many more tokens beyond".toList) "hello world".toList
      = 11 / 39 := by
    have h0 : lineNormOf "hello world and many more tokens beyond".toList
        = "hello world and many more tokens beyond".toList := by decide
    rw [h0]
    unfold getMatchScore
    rw [if_neg (by decide), if_neg (by decide), if_pos (by decide)]
    have h1 : min ("hello world and many more tokens beyond".toList).length
        ("hello world".toList).length = 11 := by decide
    have h2 : max ("hello world and many more tokens beyond".toList).length
        ("hello world".toList).length = 39 := by decide
    rw [h1, h2]
    norm_num
  refine ⟨by decide, ?_⟩
  rw [hA, hB]
  norm_num

/-- C6 counterexample: stripping `"[b]X[/b]"` does not always normalize to
`normalizeText X`.  With `X = "a|b"` the strip pass converts the table pipe
into a space (`"a b"`), while normalizing `X` directly just deletes the pipe
(`"ab"`). -/
theorem stripTag_not_normalize_for_all :
    normalizeText (stripAllSyntax "[b]a|b[/b]".toList) ≠ normalizeText "a|b".toList := by
  decide

/-- C7 evaluation at the failing input: on the buffer `"\nabc"` (whose first
line is empty, terminated by the newline at offset 0), the selection computed
for line 0 is `[0, 4)` — the whole buffer — because `newlines[1] = 0` is falsy
in `newlines[lineIndex + 1] || value.length`; a range spanning exactly the
first line would be `[0, 0)`. -/
theorem lineBounds_zero_falsy_bug :
    jsNewlinePositions "\nabc".toList = [-1, 0] ∧
    lineBoundsStart "\nabc".toList 0 = some 0 ∧
    lineBoundsEnd "\nabc".toList 0 = 4 ∧
    lineBoundsEnd "\nabc".toList 0 ≠ 0 := by
  refine ⟨by decide, by decide, by decide, by decide⟩

/-- C8 counterexample: the connector component's highlight update is not
idempotent.  Starting from a live state, two consecutive updates with the same
node perform two highlight-apply side effects, not one. -/
theorem connUpdateActive_double_apply :
    (connUpdateActive 5 (connUpdateActive 5
      { styleRulePresent := true, isDestroying := false, isDestroyed := false,
        currentRule := none, applyCount := 0 })).applyCount = 2 := by
  decide

/-- C8 (amended): in the site-wide handler, `updateActiveElementCSSStyleRule`
is idempotent — re-applying with the same node is a guarded no-op, so two
consecutive calls with one node produce at most one highlight-apply side
effect, and the single `currentRule` slot holds at most one active highlight. -/
theorem updateActive_idempotent (node : Option Nat) (s : Ctrl) :
    updateActiveElementCSSStyleRule node (updateActiveElementCSSStyleRule node s) =
      updateActiveElementCSSStyleRule node s ∧
    (updateActiveElementCSSStyleRule node s).applyCount ≤ s.applyCount + 1 := by
  constructor
  · unfold updateActiveElementCSSStyleRule
    by_cases h1 : !s.styleRulePresent || s.destroyed || node = none
    · simp [h1]
    · by_cases h2 : s.lastHighlighted = node
      · simp [h1, h2]
      · simp [h1, h2]
  · unfold updateActiveElementCSSStyleRule
    by_cases h1 : !s.styleRulePresent || s.destroyed || node = none
    · simp [h1]
    · by_cases h2 : s.lastHighlighted = node
      · simp [h1, h2]
      · simp [h1, h2]

/-- C9: after `destroy` has run, both pending debounce timers are cancelled
and every callback of the instance that can still fire — the debounced scroll
sync, the highlight-timer closure, the `setTimeout` editor-click closure, and
the editor key/input/scroll handlers — is a no-op guarded by the destroyed
flag: it leaves the whole controller state (selection, scroll position,
highlight state, timers) unchanged. -/
theorem destroy_callbacks_noop (s0 : Ctrl) :
    (destroy s0).destroyed = true ∧
    (destroy s0).scrollTimerPending = false ∧
    (destroy s0).highlightTimerPending = none ∧
    syncEditorToPreview (destroy s0) = destroy s0 ∧
    fireScrollTimer (destroy s0) = destroy s0 ∧
    (∀ e, fireHighlightTimer e (destroy s0) = destroy s0) ∧
    debouncedScrollPreview (destroy s0) = destroy s0 ∧
    handleEditorInput (destroy s0) = destroy s0 ∧
    handleEditorScroll (destroy s0) = destroy s0 ∧
    (∀ k, handleEditorKeyDown k (destroy s0) = destroy s0) ∧
    (∀ k, handleEditorKeyUp k (destroy s0) = destroy s0) ∧
    fireEditorClickTimeout (destroy s0) = destroy s0 ∧
    (∀ e, updateActiveElementCSSStyleRule e (destroy s0) = destroy s0) := by
  have hd : (destroy s0).destroyed = true := rfl
  have hsync : syncEditorToPreview (destroy s0) = destroy s0 := by
    unfold syncEditorToPreview
    rw [if_pos]
    simp [hd]
  have hupd : ∀ e, updateActiveElementCSSStyleRule e (destroy s0) = destroy s0 := by
    intro e
    unfold updateActiveElementCSSStyleRule
    rw [if_pos]
    simp [hd]
  have hdeb : debouncedScrollPreview (destroy s0) = destroy s0 := by
    unfold debouncedScrollPreview
    rw [if_pos hd]
  refine ⟨hd, rfl, rfl, hsync, hsync, fun e => hupd (some e), hdeb, hdeb, hdeb,
    fun k => ?_, fun k => ?_, hsync, hupd⟩
  · unfold handleEditorKeyDown
    by_cases h : keyDownKeys.contains k
    · rw [if_pos h, hdeb]
    · rw [if_neg h]
  · unfold handleEditorKeyUp
    by_cases h : keyUpKeys.contains k
    · rw [if_pos h, hsync]
    · rw [if_neg h]

/-- C10: the recursion of `findElementByLineNumber` terminates.  The fuel
instrumented version of the JS recursion returns within `line + 1` recursive
calls (each call decreases `line` by one and the recursion stops at 0, or
earlier on a match or a missing wrapper), and the value it returns is that of
the total function, which always produces either a node or `null`. -/
theorem findElementByLineNumber_terminates (wrapper : Option (List (Option Nat)))
    (line fuel : Nat) (h : line < fuel) :
    findElemFuel wrapper fuel line = some (findElementByLineNumber wrapper line) := by
  induction fuel generalizing line with
  | zero => omega
  | succ n ih =>
    cases wrapper with
    | none => cases line <;> simp [findElemFuel, findElementByLineNumber]
    | some nodes =>
      cases line with
      | zero =>
        show (match (qsaLn nodes 0).getLast? with
          | some i => some (some i)
          | none => if 0 = 0 then some none else findElemFuel (some nodes) n (0 - 1)) = _
        cases hq : (qsaLn nodes 0).getLast? with
        | none => simp [findElementByLineNumber, hq]
        | some i => simp [findElementByLineNumber, hq]
      | succ m =>
        show (match (qsaLn nodes (m + 1)).getLast? with
          | some i => some (some i)
          | none => if m + 1 = 0 then some none else findElemFuel (some nodes) n (m + 1 - 1)) = _
        cases hq : (qsaLn nodes (m + 1)).getLast? with
        | none =>
          simp only [findElementByLineNumber, hq]
          have := ih m (by omega)
          simpa using this
        | some i => simp [findElementByLineNumber, hq]

/-- Witness for the termination theorem at a concrete preview and line. -/
theorem findElementByLineNumber_terminates_witness :
    7 < 8 ∧ findElemFuel (some [some 5, none, some 5]) 8 7
      = some (findElementByLineNumber (some [some 5, none, some 5]) 7) :=
  ⟨by decide, findElementByLineNumber_terminates (some [some 5, none, some 5]) 7 8 (by decide)⟩

/-- Last element of a cons with a nonempty tail. -/
theorem getLast?_cons_of_ne_nil {α : Type} (a : α) {l : List α} (h : l ≠ []) :
    (a :: l).getLast? = l.getLast? := by
  cases l with
  | nil => exact absurd rfl h
  | cons b t => exact List.getLast?_cons_cons

/-- Characterization of `qsaGo`: a `querySelectorAll('[data-ln="line"]')`
scan starting at index `i` either finds nothing (and then no node matches) or
its last result is the last matching node in document order. -/
theorem qsaGo_spec (line : Nat) (nodes : List (Option Nat)) : ∀ (i : Nat),
    (qsaGo line i nodes = [] ∧ ∀ k, nodes.get? k ≠ some (some line)) ∨
    (∃ j, (qsaGo line i nodes).getLast? = some (i + j) ∧
      nodes.get? j = some (some line) ∧
      ∀ m, j < m → nodes.get? m ≠ some (some line)) := by
  induction nodes with
  | nil => exact fun i => Or.inl ⟨rfl, fun k => by simp⟩
  | cons a r ih =>
    intro i
    rcases ih (i + 1) with ⟨h1, h2⟩ | ⟨j, hlast, hj, hafter⟩
    · by_cases ha : a = some line
      · right
        refine ⟨0, ?_, by simpa using ha, ?_⟩
        · simp [qsaGo, ha, h1]
        · intro m hm
          cases m with
          | zero => omega
          | succ k => simpa using h2 k
      · left
        refine ⟨by simp [qsaGo, ha, h1], ?_⟩
        intro k
        cases k with
        | zero => simpa using ha
        | succ k => simpa using h2 k
    · right
      have hne : qsaGo line (i + 1) r ≠ [] := by
        intro he
        rw [he] at hlast
        simp at hlast
      have harith : i + 1 + j = i + (j + 1) := by omega
      refine ⟨j + 1, ?_, by simpa using hj, ?_⟩
      · by_cases ha : a = some line
        · rw [show qsaGo line i (a :: r) = i :: qsaGo line (i + 1) r by simp [qsaGo, ha],
            getLast?_cons_of_ne_nil i hne, hlast, harith]
        · rw [show qsaGo line i (a :: r) = qsaGo line (i + 1) r by simp [qsaGo, ha],
            hlast, harith]
      · intro m hm
        cases m with
        | zero => omega
        | succ k => simpa using hafter k (by omega)

/-- C2: `resolvePreviewFromLine` (`findElementByLineNumber`).  If some node is
annotated with the queried line, the result is the last such node in document
order (no scoring is involved anywhere in the function); if none is and the
line is positive, the result is exactly the lookup at `line - 1`; at line 0
with no annotated node the annotation path reports no match. -/
theorem findElementByLineNumber_spec (nodes : List (Option Nat)) (line : Nat) :
    ((∃ k, nodes.get? k = some (some line)) →
      ∃ i, findElementByLineNumber (some nodes) line = some i ∧
        nodes.get? i = some (some line) ∧
        ∀ j, i < j → nodes.get? j ≠ some (some line)) ∧
    ((∀ k, nodes.get? k ≠ some (some line)) → 0 < line →
      findElementByLineNumber (some nodes) line
        = findElementByLineNumber (some nodes) (line - 1)) ∧
    ((∀ k, nodes.get? k ≠ some (some line)) → line = 0 →
      findElementByLineNumber (some nodes) line = none) := by
  refine ⟨?_, ?_, ?_⟩
  · rintro ⟨k, hk⟩
    rcases qsaGo_spec line nodes 0 with ⟨_, hnone⟩ | ⟨j, hlast, hj, hafter⟩
    · exact absurd hk (hnone k)
    · refine ⟨j, ?_, hj, hafter⟩
      have hq : (qsaLn nodes line).getLast? = some j := by simpa [qsaLn] using hlast
      cases line with
      | zero => simp [findElementByLineNumber, hq]
      | succ m => simp [findElementByLineNumber, hq]
  · intro hnone hpos
    have hq : (qsaLn nodes line).getLast? = none := by
      rcases qsaGo_spec line nodes 0 with ⟨hemp, _⟩ | ⟨j, _, hj, _⟩
      · simp [qsaLn, hemp]
      · exact absurd hj (hnone j)
    cases line with
    | zero => omega
    | succ m => simp [findElementByLineNumber, hq]
  · intro hnone hzero
    subst hzero
    have hq : (qsaLn nodes 0).getLast? = none := by
      rcases qsaGo_spec 0 nodes 0 with ⟨hemp, _⟩ | ⟨j, _, hj, _⟩
      · simp [qsaLn, hemp]
      · exact absurd hj (hnone j)
    simp [findElementByLineNumber, hq]

/-- Witness: a preview where nodes 0 and 2 are annotated with line 5 resolves
line 5 to node 2, the last one in document order. -/
theorem findElementByLineNumber_spec_witness :
    (∃ k, ([some 5, none, some 5] : List (Option Nat)).get? k = some (some 5)) ∧
    ∃ i, findElementByLineNumber (some [some 5, none, some 5]) 5 = some i ∧
      ([some 5, none, some 5] : List (Option Nat)).get? i = some (some 5) ∧
      ∀ j, i < j → ([some 5, none, some 5] : List (Option Nat)).get? j ≠ some (some 5) :=
  ⟨⟨0, by decide⟩, (findElementByLineNumber_spec [some 5, none, some 5] 5).1 ⟨0, by decide⟩⟩

/-- A pass scan starting at offset `i` is the library first-index search with
start accumulator `i`. -/
theorem passLoop_eq_findIdx (p : Str → Bool) (l : List Str) :
    ∀ i, passLoop p i l = List.findIdx? p l i := by
  induction l with
  | nil => intro i; rfl
  | cons a r ih =>
    intro i
    by_cases h : p a
    · simp [passLoop, h, List.findIdx?_cons]
    · simp [passLoop, h, List.findIdx?_cons, ih (i + 1)]

/-- A pass scan fails exactly when its test fails on every line. -/
theorem passLoop_none_iff {p : Str → Bool} {l : List Str} {i : Nat} :
    passLoop p i l = none ↔ ∀ x ∈ l, p x = false := by
  induction l generalizing i with
  | nil => simp [passLoop]
  | cons a r ih =>
    by_cases h : p a
    · simp [passLoop, h]
    · rw [show passLoop p i (a :: r) = passLoop p (i + 1) r from by simp [passLoop, h]]
      rw [ih]
      constructor
      · intro hall x hx
        rcases List.mem_cons.mp hx with rfl | hx
        · simpa using h
        · exact hall x hx
      · intro hall x hx
        exact hall x (by simp [hx])

/-- A successful pass scan returns the offset-adjusted index of the first line
passing the test: the line at that index passes and every earlier one fails. -/
theorem passLoop_first {p : Str → Bool} {l : List Str} :
    ∀ {i k : Nat}, passLoop p i l = some k →
      i ≤ k ∧ (∃ x, l.get? (k - i) = some x ∧ p x = true) ∧
        ∀ m, m < k - i → ∀ y, l.get? m = some y → p y = false := by
  induction l with
  | nil => intro i k h; simp [passLoop] at h
  | cons a r ih =>
    intro i k h
    by_cases ha : p a
    · rw [show passLoop p i (a :: r) = some i from by simp [passLoop, ha]] at h
      obtain rfl : i = k := by simpa using h
      refine ⟨le_refl _, ⟨a, by simp, ha⟩, ?_⟩
      intro m hm
      omega
    · rw [show passLoop p i (a :: r) = passLoop p (i + 1) r from by simp [passLoop, ha]] at h
      obtain ⟨hik, ⟨x, hx, hpx⟩, hbefore⟩ := ih h
      have hki : k - i = (k - (i + 1)) + 1 := by omega
      refine ⟨by omega, ⟨x, by rw [hki]; simpa using hx, hpx⟩, ?_⟩
      intro m hm y hy
      cases m with
      | zero =>
        obtain rfl : a = y := by simpa using hy
        simpa using ha
      | succ m' =>
        exact hbefore m' (by omega) y (by simpa using hy)

/-- C1: `findLineByContent` runs its three passes in strict order — exact
normalized equality, then substring containment either way, then fuzzy word
overlap — and returns the first line index found by the earliest pass that
succeeds (a later pass is never consulted once an earlier one yields a match);
whenever it returns an index, that line passes one of the three tests and
every earlier line fails that test; and it returns `none`, not an error,
exactly when no pass matches any line. -/
theorem findLineByContent_three_passes (e v : Str) :
    (findLineByContent e v =
      match List.findIdx? (exactPred (normalizeText (jsTrim e))) (splitLines v) with
      | some i => some i
      | none =>
        match List.findIdx? (containsPred (normalizeText (jsTrim e))) (splitLines v) with
        | some i => some i
        | none => List.findIdx? (fuzzyPred (normalizeText (jsTrim e))) (splitLines v)) ∧
    (∀ i, findLineByContent e v = some i →
      ∃ p, (p = exactPred (normalizeText (jsTrim e)) ∨
            p = containsPred (normalizeText (jsTrim e)) ∨
            p = fuzzyPred (normalizeText (jsTrim e))) ∧
        (∃ x, (splitLines v).get? i = some x ∧ p x = true) ∧
        ∀ m, m < i → ∀ y, (splitLines v).get? m = some y → p y = false) ∧
    (findLineByContent e v = none ↔
      ∀ l ∈ splitLines v,
        exactPred (normalizeText (jsTrim e)) l = false ∧
        containsPred (normalizeText (jsTrim e)) l = false ∧
        fuzzyPred (normalizeText (jsTrim e)) l = false) := by
  by_cases hg : jsTrim e = []
  · have htgt : normalizeText (jsTrim e) = [] := by rw [hg]; rfl
    have hnone : findLineByContent e v = none := by
      simp only [findLineByContent]
      rw [if_pos hg]
    have h1 : List.findIdx? (exactPred (normalizeText (jsTrim e))) (splitLines v) = none := by
      rw [← passLoop_eq_findIdx]
      exact passLoop_none_iff.mpr (fun l _ => by simp [exactPred, htgt])
    have h2 : List.findIdx? (containsPred (normalizeText (jsTrim e))) (splitLines v) = none := by
      rw [← passLoop_eq_findIdx]
      exact passLoop_none_iff.mpr (fun l _ => by simp [containsPred, htgt])
    have h3 : List.findIdx? (fuzzyPred (normalizeText (jsTrim e))) (splitLines v) = none := by
      rw [← passLoop_eq_findIdx]
      exact passLoop_none_iff.mpr (fun l _ => by simp [fuzzyPred, htgt])
    refine ⟨by rw [hnone, h1, h2, h3], ?_, ?_⟩
    · intro i hi
      rw [hnone] at hi
      exact absurd hi (by simp)
    · rw [hnone]
      simp only [true_iff]
      intro l _
      exact ⟨by simp [exactPred, htgt], by simp [containsPred, htgt], by simp [fuzzyPred, htgt]⟩
  · have hun : findLineByContent e v =
        match passLoop (exactPred (normalizeText (jsTrim e))) 0 (splitLines v) with
        | some i => some i
        | none =>
          match passLoop (containsPred (normalizeText (jsTrim e))) 0 (splitLines v) with
          | some i => some i
          | none => passLoop (fuzzyPred (normalizeText (jsTrim e))) 0 (splitLines v) := by
      simp only [findLineByContent]
      rw [if_neg hg]
    refine ⟨?_, ?_, ?_⟩
    · rw [hun, passLoop_eq_findIdx, passLoop_eq_findIdx, passLoop_eq_findIdx]
    · intro i hi
      rw [hun] at hi
      cases hx1 : passLoop (exactPred (normalizeText (jsTrim e))) 0 (splitLines v) with
      | some j =>
        rw [hx1] at hi
        obtain rfl : j = i := by simpa using hi
        obtain ⟨_, hx, hbef⟩ := passLoop_first hx1
        exact ⟨exactPred (normalizeText (jsTrim e)), Or.inl rfl, by simpa using hx,
          fun m hm => by simpa using hbef m (by omega)⟩
      | none =>
        rw [hx1] at hi
        cases hx2 : passLoop (containsPred (normalizeText (jsTrim e))) 0 (splitLines v) with
        | some j =>
          rw [hx2] at hi
          obtain rfl : j = i := by simpa using hi
          obtain ⟨_, hx, hbef⟩ := passLoop_first hx2
          exact ⟨containsPred (normalizeText (jsTrim e)), Or.inr (Or.inl rfl), by simpa using hx,
            fun m hm => by simpa using hbef m (by omega)⟩
        | none =>
          rw [hx2] at hi
          simp only at hi
          obtain ⟨_, hx, hbef⟩ := passLoop_first hi
          exact ⟨fuzzyPred (normalizeText (jsTrim e)), Or.inr (Or.inr rfl), by simpa using hx,
            fun m hm => by simpa using hbef m (by omega)⟩
    · rw [hun]
      constructor
      · intro hnone l hl
        cases hx1 : passLoop (exactPred (normalizeText (jsTrim e))) 0 (splitLines v) with
        | some j => rw [hx1] at hnone; simp at hnone
        | none =>
          cases hx2 : passLoop (containsPred (normalizeText (jsTrim e))) 0 (splitLines v) with
          | some j => rw [hx1, hx2] at hnone; simp at hnone
          | none =>
            rw [hx1, hx2] at hnone
            simp only at hnone
            exact ⟨passLoop_none_iff.mp hx1 l hl, passLoop_none_iff.mp hx2 l hl,
              passLoop_none_iff.mp hnone l hl⟩
      · intro hall
        rw [passLoop_none_iff.mpr (fun x hx => (hall x hx).1),
          passLoop_none_iff.mpr (fun x hx => (hall x hx).2.1),
          passLoop_none_iff.mpr (fun x hx => (hall x hx).2.2)]

/-- C3 (amended): the click-to-line resolution returns the first-scanned
(lowest-index) line of the earliest pass that succeeds, and never consults
MatchScorer at all: if no line passes the exact test and line `i` is the first
line passing the contains test, the result is `i` — whatever the MatchScorer
scores of the candidate lines are (the counterexample above shows a later
line scoring strictly higher and still losing). -/
theorem findLineByContent_first_in_pass (e v : Str) (i : Nat)
    (hex : ∀ l ∈ splitLines v, exactPred (normalizeText (jsTrim e)) l = false)
    (hfirst : passLoop (containsPred (normalizeText (jsTrim e))) 0 (splitLines v) = some i) :
    findLineByContent e v = some i := by
  have hg : jsTrim e ≠ [] := by
    intro hg
    have htgt : normalizeText (jsTrim e) = [] := by rw [hg]; rfl
    have : passLoop (containsPred (normalizeText (jsTrim e))) 0 (splitLines v) = none :=
      passLoop_none_iff.mpr (fun l _ => by simp [containsPred, htgt])
    rw [this] at hfirst
    exact absurd hfirst (by simp)
  have hx1 : passLoop (exactPred (normalizeText (jsTrim e))) 0 (splitLines v) = none :=
    passLoop_none_iff.mpr hex
  simp only [findLineByContent]
  rw [if_neg hg, hx1, hfirst]

/-- Witness: a buffer where no line
matches exactly, the contains pass first matches at line 0. -/
theorem findLineByContent_first_in_pass_witness :
    (∀ l ∈ splitLines "hello world and many more tokens beyond\nhello worlds".toList,
      exactPred (normalizeText (jsTrim "hello world".toList)) l = false) ∧
    passLoop (containsPred (normalizeText (jsTrim "hello world".toList))) 0
      (splitLines "hello world and many more tokens beyond\nhello worlds".toList) = some 0 ∧
    findLineByContent "hello world".toList
      "hello world and many more tokens beyond\nhello worlds".toList = some 0 :=
  ⟨by decide, by decide,
    findLineByContent_first_in_pass _ _ 0 (by decide) (by decide)⟩

/-- C4 (amended): in the fuzzy (case 3) tier of `getMatchScore` — reached for
nonempty strings that are neither equal nor substrings of each other — both
sides are split into words of length > 2, the returned score is the number of
matching words divided by the larger word count, and it is 0 when either word
list is empty; but the iteration is driven by the *first argument's* word set
(a word of `a` matches when some word of `b` contains it or is contained in
it), not by the shorter side's as the specification states (the
counterexample above exhibits the difference). -/
theorem getMatchScore_fuzzy_formula (a b : Str) (ha : a ≠ []) (hb : b ≠ [])
    (hne : a ≠ b) (hab : strContains a b = false) (hba : strContains b a = false) :
    getMatchScore a b =
      if longWords a = [] ∨ longWords b = [] then 0
      else ((countWordHits (longWords a) (longWords b) : Nat) : ℚ) /
        ((max (longWords a).length (longWords b).length : Nat) : ℚ) := by
  unfold getMatchScore
  rw [if_neg (by simp [ha, hb]), if_neg hne, if_neg (by simp [hab, hba])]
  by_cases hw : longWords a = [] ∨ longWords b = []
  · rw [if_pos (by simpa using hw), if_pos hw]
  · rw [if_neg (by simpa using hw), if_neg hw]

/-- Witness: the fuzzy formula applied at a concrete non-substring pair. -/
theorem getMatchScore_fuzzy_formula_witness :
    ("aaa aab".toList ≠ ([] : Str)) ∧ ("aaab".toList ≠ ([] : Str)) ∧
    "aaa aab".toList ≠ "aaab".toList ∧
    strContains "aaa aab".toList "aaab".toList = false ∧
    strContains "aaab".toList "aaa aab".toList = false ∧
    getMatchScore "aaa aab".toList "aaab".toList =
      (if longWords "aaa aab".toList = [] ∨ longWords "aaab".toList = [] then 0
       else ((countWordHits (longWords "aaa aab".toList) (longWords "aaab".toList) : Nat) : ℚ) /
        ((max (longWords "aaa aab".toList).length (longWords "aaab".toList).length : Nat) : ℚ)) :=
  ⟨by decide, by decide, by decide, by decide, by decide,
    getMatchScore_fuzzy_formula _ _ (by decide) (by decide) (by decide) (by decide) (by decide)⟩

/-- Witness: the three-pass characterization at a buffer whose second line
matches the clicked text exactly. -/
theorem findLineByContent_three_passes_witness :
    findLineByContent "beta".toList "alpha\nbeta".toList = some 1 ∧
    ∃ p, (p = exactPred (normalizeText (jsTrim "beta".toList)) ∨
          p = containsPred (normalizeText (jsTrim "beta".toList)) ∨
          p = fuzzyPred (normalizeText (jsTrim "beta".toList))) ∧
      (∃ x, (splitLines "alpha\nbeta".toList).get? 1 = some x ∧ p x = true) ∧
      ∀ m, m < 1 → ∀ y, (splitLines "alpha\nbeta".toList).get? m = some y → p y = false :=
  ⟨by decide, (findLineByContent_three_passes "beta".toList "alpha\nbeta".toList).2.1 1 (by decide)⟩

/-!
Character-level facts used by the normalization lemmas, phrased over
`Char.toNat` so that `omega` can settle the arithmetic.
-/

/-- Characters with equal code points are equal. -/
theorem charToNat_inj {c d : Char} (h : c.toNat = d.toNat) : c = d :=
  Char.ext (UInt32.ext h)

/-- Code point of `Char.ofNat` below the surrogate range. -/
theorem charToNat_ofNat (n : Nat) (h : n < 0xD800) : (Char.ofNat n).toNat = n := by
  have hv : n.isValidChar := Or.inl h
  rw [Char.ofNat, dif_pos hv]
  rfl

/-- Character order is code-point order. -/
theorem char_le_iff_toNat {c d : Char} : c ≤ d ↔ c.toNat ≤ d.toNat := by
  rw [Char.le_def, UInt32.le_def, BitVec.le_def]
  rfl

/-- Character equality is code-point equality. -/
theorem char_eq_iff_toNat {c d : Char} : c = d ↔ c.toNat = d.toNat :=
  ⟨fun h => by rw [h], charToNat_inj⟩

/-- Code-point characterization of `isWsChar`. -/
theorem isWsChar_iff {c : Char} : isWsChar c = true ↔
    c.toNat = 32 ∨ c.toNat = 9 ∨ c.toNat = 10 ∨ c.toNat = 13 ∨
    c.toNat = 11 ∨ c.toNat = 12 := by
  simp only [isWsChar, Bool.or_eq_true, beq_iff_eq]
  constructor
  · rintro (((((h | h) | h) | h) | h) | h) <;>
      rw [char_eq_iff_toNat] at h <;> simp_all
  · intro h
    rcases h with h | h | h | h | h | h
    · exact Or.inl (Or.inl (Or.inl (Or.inl (Or.inl (charToNat_inj h)))))
    · exact Or.inl (Or.inl (Or.inl (Or.inl (Or.inr (charToNat_inj h)))))
    · exact Or.inl (Or.inl (Or.inl (Or.inr (charToNat_inj h))))
    · exact Or.inl (Or.inl (Or.inr (charToNat_inj h)))
    · exact Or.inl (Or.inr (charToNat_inj h))
    · exact Or.inr (charToNat_inj h)

/-- Code-point characterization of `isWordChar`. -/
theorem isWordChar_iff {c : Char} : isWordChar c = true ↔
    (97 ≤ c.toNat ∧ c.toNat ≤ 122) ∨ (65 ≤ c.toNat ∧ c.toNat ≤ 90) ∨
    (48 ≤ c.toNat ∧ c.toNat ≤ 57) ∨ c.toNat = 95 := by
  simp only [isWordChar, Bool.or_eq_true, Bool.and_eq_true, decide_eq_true_eq, beq_iff_eq]
  constructor
  · rintro (((⟨h1, h2⟩ | ⟨h1, h2⟩) | ⟨h1, h2⟩) | h) <;>
      [skip; skip; skip; rw [char_eq_iff_toNat] at h] <;>
      simp_all [char_le_iff_toNat]
  · intro h
    rcases h with ⟨h1, h2⟩ | ⟨h1, h2⟩ | ⟨h1, h2⟩ | h
    · exact Or.inl (Or.inl (Or.inl ⟨char_le_iff_toNat.mpr h1, char_le_iff_toNat.mpr h2⟩))
    · exact Or.inl (Or.inl (Or.inr ⟨char_le_iff_toNat.mpr h1, char_le_iff_toNat.mpr h2⟩))
    · exact Or.inl (Or.inr ⟨char_le_iff_toNat.mpr h1, char_le_iff_toNat.mpr h2⟩)
    · exact Or.inr (charToNat_inj h)

/-- Code-point characterization of `isKeptChar`. -/
theorem isKeptChar_iff {c : Char} : isKeptChar c = true ↔
    isWordChar c = true ∨ isWsChar c = true ∨
    (0xC0 ≤ c.toNat ∧ c.toNat ≤ 0x24F) ∨ (0x1E00 ≤ c.toNat ∧ c.toNat ≤ 0x1EFF) := by
  simp only [isKeptChar, Bool.or_eq_true, Bool.and_eq_true, decide_eq_true_eq]
  tauto

/-- Code point of `jsToLower` on an ASCII uppercase letter. -/
theorem jsToLower_toNat_upper {c : Char} (h : 65 ≤ c.toNat ∧ c.toNat ≤ 90) :
    (jsToLower c).toNat = c.toNat + 32 := by
  unfold jsToLower
  rw [if_pos (by simp [h.1, h.2])]
  exact charToNat_ofNat _ (by omega)

/-- `jsToLower` is the identity outside ASCII uppercase letters. -/
theorem jsToLower_eq_self {c : Char} (h : ¬(65 ≤ c.toNat ∧ c.toNat ≤ 90)) :
    jsToLower c = c := by
  unfold jsToLower
  rw [if_neg (by simpa using fun h1 h2 => h ⟨h1, h2⟩)]

/-- Lowercasing twice is lowercasing once. -/
theorem jsToLower_idem (c : Char) : jsToLower (jsToLower c) = jsToLower c := by
  by_cases h : 65 ≤ c.toNat ∧ c.toNat ≤ 90
  · have ht := jsToLower_toNat_upper h
    exact jsToLower_eq_self (by omega)
  · rw [jsToLower_eq_self h, jsToLower_eq_self h]

/-- Lowercasing does not change whitespace-ness. -/
theorem isWsChar_jsToLower (c : Char) : isWsChar (jsToLower c) = isWsChar c := by
  by_cases h : 65 ≤ c.toNat ∧ c.toNat ≤ 90
  · have ht := jsToLower_toNat_upper h
    have h1 : isWsChar (jsToLower c) = false := by
      cases hx : isWsChar (jsToLower c) with
      | false => rfl
      | true => have := isWsChar_iff.mp hx; omega
    have h2 : isWsChar c = false := by
      cases hx : isWsChar c with
      | false => rfl
      | true => have := isWsChar_iff.mp hx; omega
    rw [h1, h2]
  · rw [jsToLower_eq_self h]

/-- Lowercasing keeps kept characters kept. -/
theorem isKeptChar_jsToLower {c : Char} (h : isKeptChar c = true) :
    isKeptChar (jsToLower c) = true := by
  by_cases hu : 65 ≤ c.toNat ∧ c.toNat ≤ 90
  · have ht := jsToLower_toNat_upper hu
    exact isKeptChar_iff.mpr (Or.inl (isWordChar_iff.mpr (Or.inl (by omega))))
  · rwa [jsToLower_eq_self hu]

/-- The space character is a fixed point of `jsToLower`. -/
theorem jsToLower_space : jsToLower ' ' = ' ' := by decide

/-- The space character is kept. -/
theorem isKeptChar_space : isKeptChar ' ' = true := by decide

/-!
Normalization lemmas: structure of `collapseWs`, `jsTrim` and their
interaction, leading to the quasi-idempotence of `normalizeText` and to its
invariance under trimming.
-/

/-- A map whose function fixes every member is the identity. -/
theorem map_eq_self_of_fix {f : Char → Char} {l : Str} (h : ∀ c ∈ l, f c = c) :
    l.map f = l := by
  induction l with
  | nil => rfl
  | cons a r ih => rw [List.map_cons, h a (by simp), ih (fun c hc => h c (by simp [hc]))]

/-- Members of a collapsed string are the space or members of the input. -/
theorem mem_collapseAux {c : Char} : ∀ {m : Bool} {l : Str},
    c ∈ collapseAux m l → c = ' ' ∨ c ∈ l := by
  intro m l
  induction l generalizing m with
  | nil => intro h; simp [collapseAux] at h
  | cons a r ih =>
    intro h
    by_cases hw : isWsChar a
    · by_cases hm : m
      · rw [show collapseAux m (a :: r) = collapseAux true r from by
          simp [collapseAux, hw, hm]] at h
        rcases ih h with h | h
        · exact Or.inl h
        · exact Or.inr (by simp [h])
      · rw [show collapseAux m (a :: r) = ' ' :: collapseAux true r from by
          simp [collapseAux, hw, hm]] at h
        rcases List.mem_cons.mp h with rfl | h
        · exact Or.inl rfl
        · rcases ih h with h | h
          · exact Or.inl h
          · exact Or.inr (by simp [h])
    · rw [show collapseAux m (a :: r) = a :: collapseAux false r from by
        simp [collapseAux, hw]] at h
      rcases List.mem_cons.mp h with rfl | h
      · exact Or.inr (by simp)
      · rcases ih h with h | h
        · exact Or.inl h
        · exact Or.inr (by simp [h])

/-- Members of the left trim are members. -/
theorem mem_trimLeft {c : Char} {l : Str} (h : c ∈ trimLeft l) : c ∈ l :=
  (List.dropWhile_sublist isWsChar).subset h

/-- Members of the right trim are members. -/
theorem mem_trimRight {c : Char} {l : Str} (h : c ∈ trimRight l) : c ∈ l := by
  unfold trimRight at h
  rw [List.mem_reverse] at h
  exact List.mem_reverse.mp ((List.dropWhile_sublist isWsChar).subset h)

/-- Members of the trim are members. -/
theorem mem_jsTrim {c : Char} {l : Str} (h : c ∈ jsTrim l) : c ∈ l :=
  mem_trimLeft (mem_trimRight h)

/-- Well-spacedness: every whitespace character is the single space and no
whitespace character is followed by another. -/
def noWsIssue : Str → Bool
  | [] => true
  | a :: r =>
    (!(isWsChar a) || ((a == ' ') &&
      (match r with | [] => true | b :: _ => !(isWsChar b)))) && noWsIssue r

/-- A string collapsed in skipping mode starts with a non-space. -/
theorem collapseAux_true_head : ∀ (l : Str) (c : Char),
    (collapseAux true l).head? = some c → isWsChar c = false := by
  intro l
  induction l with
  | nil => intro c h; simp [collapseAux] at h
  | cons a r ih =>
    intro c h
    by_cases hw : isWsChar a
    · rw [show collapseAux true (a :: r) = collapseAux true r from by
        simp [collapseAux, hw]] at h
      exact ih c h
    · rw [show collapseAux true (a :: r) = a :: collapseAux false r from by
        simp [collapseAux, hw]] at h
      obtain rfl : a = c := by simpa using h
      simpa using hw

/-- Collapsed strings are well-spaced. -/
theorem noWsIssue_collapseAux : ∀ (m : Bool) (l : Str),
    noWsIssue (collapseAux m l) = true := by
  intro m l
  induction l generalizing m with
  | nil => simp [collapseAux, noWsIssue]
  | cons a r ih =>
    by_cases hw : isWsChar a
    · by_cases hm : m
      · rw [show collapseAux m (a :: r) = collapseAux true r from by
          simp [collapseAux, hw, hm]]
        exact ih true
      · rw [show collapseAux m (a :: r) = ' ' :: collapseAux true r from by
          simp [collapseAux, hw, hm]]
        have htail := ih true
        unfold noWsIssue
        rw [htail]
        cases hh : collapseAux true r with
        | nil => simp
        | cons b t =>
          have hb : isWsChar b = false := collapseAux_true_head r b (by simp [hh])
          simp [hb]
    · rw [show collapseAux m (a :: r) = a :: collapseAux false r from by
        simp [collapseAux, hw]]
      have htail := ih false
      unfold noWsIssue
      rw [htail]
      simp [hw]

/-- Collapsing is the identity on well-spaced strings. -/
theorem collapseAux_id_of_noWsIssue : ∀ {l : Str}, noWsIssue l = true →
    collapseAux false l = l := by
  intro l
  induction l with
  | nil => intro _; rfl
  | cons a r ih =>
    intro h
    unfold noWsIssue at h
    rw [Bool.and_eq_true] at h
    obtain ⟨hhead, htail⟩ := h
    by_cases hw : isWsChar a
    · rw [Bool.or_eq_true, Bool.and_eq_true] at hhead
      rcases hhead with hno | ⟨hsp, hnext⟩
      · simp [hw] at hno
      · obtain rfl : a = ' ' := by simpa using hsp
        rw [show collapseAux false (' ' :: r) = ' ' :: collapseAux true r from by
          simp [collapseAux, hw]]
        cases r with
        | nil => rfl
        | cons b t =>
          have hb : isWsChar b = false := by
            have hnext2 : (!(isWsChar b)) = true := hnext
            simpa using hnext2
          rw [show collapseAux true (b :: t) = b :: collapseAux false t from by
            simp [collapseAux, hb]]
          have := ih htail
          rw [show collapseAux false (b :: t) = b :: collapseAux false t from by
            simp [collapseAux, hb]] at this
          rw [List.cons.injEq] at this
          rw [this.2]
    · rw [show collapseAux false (a :: r) = a :: collapseAux false r from by
        simp [collapseAux, hw], ih htail]

/-- Well-spacedness passes to the tail. -/
theorem noWsIssue_tail {a : Char} {r : Str} (h : noWsIssue (a :: r) = true) :
    noWsIssue r = true := by
  unfold noWsIssue at h
  rw [Bool.and_eq_true] at h
  exact h.2

/-- Well-spacedness passes to left-trimmed strings. -/
theorem noWsIssue_dropWhile {l : Str} (h : noWsIssue l = true) :
    noWsIssue (l.dropWhile isWsChar) = true := by
  induction l with
  | nil => simpa using h
  | cons a r ih =>
    by_cases hw : isWsChar a
    · rw [List.dropWhile_cons_of_pos hw]
      exact ih (noWsIssue_tail h)
    · rwa [List.dropWhile_cons_of_neg (by simp [hw])]

/-- Well-spacedness passes to prefixes. -/
theorem noWsIssue_append_left : ∀ {a b : Str}, noWsIssue (a ++ b) = true →
    noWsIssue a = true := by
  intro a
  induction a with
  | nil => intro b _; rfl
  | cons x r ih =>
    intro b h
    rw [List.cons_append] at h
    unfold noWsIssue at h ⊢
    rw [Bool.and_eq_true] at h
    obtain ⟨hhead, htail⟩ := h
    rw [ih htail, Bool.and_true]
    rw [Bool.or_eq_true] at hhead ⊢
    rcases hhead with hno | hx
    · exact Or.inl hno
    · rw [Bool.and_eq_true] at hx
      obtain ⟨hsp, hnext⟩ := hx
      refine Or.inr (by
        rw [Bool.and_eq_true]
        refine ⟨hsp, ?_⟩
        cases r with
        | nil => rfl
        | cons y t => simpa using hnext)

/-- Every string splits into its right trim and an all-whitespace tail. -/
theorem trimRight_decomp (l : Str) :
    l = trimRight l ++ (List.takeWhile isWsChar l.reverse).reverse := by
  unfold trimRight
  conv_lhs => rw [← List.reverse_reverse l,
    ← List.takeWhile_append_dropWhile isWsChar l.reverse]
  rw [List.reverse_append]

/-- Well-spacedness passes to right-trimmed strings. -/
theorem noWsIssue_trimRight {l : Str} (h : noWsIssue l = true) :
    noWsIssue (trimRight l) = true := by
  refine noWsIssue_append_left (a := trimRight l)
    (b := (List.takeWhile isWsChar l.reverse).reverse) ?_
  rw [← trimRight_decomp]
  exact h

/-- Well-spacedness passes to trimmed strings. -/
theorem noWsIssue_jsTrim {l : Str} (h : noWsIssue l = true) :
    noWsIssue (jsTrim l) = true :=
  noWsIssue_trimRight (noWsIssue_dropWhile h)

/-- Dropping a satisfied prefix twice is dropping it once. -/
theorem dropWhile_idem (p : Char → Bool) (l : Str) :
    (l.dropWhile p).dropWhile p = l.dropWhile p := by
  induction l with
  | nil => rfl
  | cons a r ih =>
    by_cases h : p a
    · rw [List.dropWhile_cons_of_pos h, ih]
    · rw [List.dropWhile_cons_of_neg (by simpa using h),
        List.dropWhile_cons_of_neg (by simpa using h)]

/-- Right-trimming twice is right-trimming once. -/
theorem trimRight_idem (l : Str) : trimRight (trimRight l) = trimRight l := by
  unfold trimRight
  rw [List.reverse_reverse, dropWhile_idem]

/-- The right trim of a left-trimmed string is already left-trimmed. -/
theorem trimLeft_trimRight_trimLeft (l : Str) :
    trimLeft (trimRight (trimLeft l)) = trimRight (trimLeft l) := by
  cases hc : trimRight (trimLeft l) with
  | nil => rfl
  | cons c z =>
    have hhead : (trimLeft l).head? = some c := by
      have hd := trimRight_decomp (trimLeft l)
      rw [hc] at hd
      rw [hd]
      rfl
    have hcws : isWsChar c = false := by
      have := List.head?_dropWhile_not isWsChar l
      unfold trimLeft at hhead
      rw [hhead] at this
      exact this
    unfold trimLeft
    rw [List.dropWhile_cons_of_neg (by simp [hcws])]

/-- JS `trim` is idempotent. -/
theorem jsTrim_idem (l : Str) : jsTrim (jsTrim l) = jsTrim l := by
  unfold jsTrim
  rw [trimLeft_trimRight_trimLeft, trimRight_idem]

/-- Lowercasing commutes with the left trim. -/
theorem trimLeft_map_jsToLower (l : Str) :
    trimLeft (l.map jsToLower) = (trimLeft l).map jsToLower := by
  unfold trimLeft
  rw [List.dropWhile_map]
  rw [show (isWsChar ∘ jsToLower) = isWsChar from funext isWsChar_jsToLower]

/-- Lowercasing commutes with the right trim. -/
theorem trimRight_map_jsToLower (l : Str) :
    trimRight (l.map jsToLower) = (trimRight l).map jsToLower := by
  unfold trimRight
  rw [← List.map_reverse, List.dropWhile_map, List.map_reverse,
    show (isWsChar ∘ jsToLower) = isWsChar from funext isWsChar_jsToLower]

/-- Lowercasing commutes with JS `trim`. -/
theorem jsTrim_map_jsToLower (l : Str) :
    jsTrim (l.map jsToLower) = (jsTrim l).map jsToLower := by
  unfold jsTrim
  rw [trimLeft_map_jsToLower, trimRight_map_jsToLower]

/-- C5 (amended): `normalizeText` is idempotent on strings made only of kept
characters (word characters, whitespace, extended Latin).  In general the
removal step can merge two whitespace runs into an uncollapsed double space
(the counterexample above), but without removable characters the
second application changes nothing. -/
theorem normalizeText_idempotent_on_kept (s : Str) (h : ∀ c ∈ s, isKeptChar c = true) :
    normalizeText (normalizeText s) = normalizeText s := by
  by_cases hs : s = []
  · subst hs
    simp [normalizeText]
  · have hstep : normalizeText s = jsTrim (collapseWs (s.map jsToLower)) := by
      unfold normalizeText
      rw [if_neg hs]
      congr 1
      apply List.filter_eq_self.mpr
      intro c hc
      rcases mem_collapseAux hc with rfl | hc
      · exact isKeptChar_space
      · obtain ⟨d, hd, rfl⟩ := List.mem_map.mp hc
        exact isKeptChar_jsToLower (h d hd)
    obtain ⟨t, ht⟩ : ∃ t, jsTrim (collapseWs (s.map jsToLower)) = t := ⟨_, rfl⟩
    rw [hstep, ht]
    have htmem : ∀ c ∈ t, c = ' ' ∨ ∃ d ∈ s, c = jsToLower d := by
      intro c hc
      rw [← ht] at hc
      rcases mem_collapseAux (mem_jsTrim hc) with h1 | h1
      · exact Or.inl h1
      · obtain ⟨d, hd, rfl⟩ := List.mem_map.mp h1
        exact Or.inr ⟨d, hd, rfl⟩
    have hlower : t.map jsToLower = t := by
      apply map_eq_self_of_fix
      intro c hc
      rcases htmem c hc with rfl | ⟨d, _, rfl⟩
      · exact jsToLower_space
      · exact jsToLower_idem d
    have hkept : ∀ c ∈ t, isKeptChar c = true := by
      intro c hc
      rcases htmem c hc with rfl | ⟨d, hd, rfl⟩
      · exact isKeptChar_space
      · exact isKeptChar_jsToLower (h d hd)
    have hnws : noWsIssue t = true := by
      rw [← ht]
      exact noWsIssue_jsTrim (noWsIssue_collapseAux false _)
    have hcol : collapseWs t = t := collapseAux_id_of_noWsIssue hnws
    have htrim : jsTrim t = t := by
      rw [← ht, jsTrim_idem]
    by_cases ht0 : t = []
    · rw [ht0]
      simp [normalizeText]
    · unfold normalizeText
      rw [if_neg ht0, hlower]
      show jsTrim ((collapseWs t).filter isKeptChar) = t
      rw [hcol, List.filter_eq_self.mpr hkept, htrim]

/-- Witness: idempotence at a kept-only string with mixed case and a double
space. -/
theorem normalizeText_idempotent_on_kept_witness :
    (∀ c ∈ "Hello  World 42".toList, isKeptChar c = true) ∧
    normalizeText (normalizeText "Hello  World 42".toList)
      = normalizeText "Hello  World 42".toList :=
  ⟨by decide, normalizeText_idempotent_on_kept "Hello  World 42".toList (by decide)⟩

/-!
Inertness of the `stripAllSyntax` passes on plain text (ASCII letters, digits
and spaces): none of the replacement patterns can fire without its trigger
character, so every pass is the identity there.
-/

/-- Plain text characters: ASCII letters, digits and the space. -/
def plainChar (c : Char) : Bool :=
  ('a' ≤ c && c ≤ 'z') || ('A' ≤ c && c ≤ 'Z') || ('0' ≤ c && c ≤ '9') || c == ' '

/-- Code-point test for `plainChar`. -/
def plainCode (n : Nat) : Bool :=
  (97 ≤ n && n ≤ 122) || (65 ≤ n && n ≤ 90) || (48 ≤ n && n ≤ 57) || n == 32

/-- `plainChar` depends only on the code point. -/
theorem plainChar_eq_code (c : Char) : plainChar c = plainCode c.toNat := by
  unfold plainChar plainCode
  rw [Bool.eq_iff_iff]
  simp only [Bool.or_eq_true, Bool.and_eq_true, decide_eq_true_eq, beq_iff_eq]
  constructor
  · rintro (((⟨h1, h2⟩ | ⟨h1, h2⟩) | ⟨h1, h2⟩) | h) <;>
      [skip; skip; skip; rw [char_eq_iff_toNat] at h] <;>
      simp_all [char_le_iff_toNat]
  · rintro (((⟨h1, h2⟩ | ⟨h1, h2⟩) | ⟨h1, h2⟩) | h)
    · exact Or.inl (Or.inl (Or.inl ⟨char_le_iff_toNat.mpr h1, char_le_iff_toNat.mpr h2⟩))
    · exact Or.inl (Or.inl (Or.inr ⟨char_le_iff_toNat.mpr h1, char_le_iff_toNat.mpr h2⟩))
    · exact Or.inl (Or.inr ⟨char_le_iff_toNat.mpr h1, char_le_iff_toNat.mpr h2⟩)
    · exact Or.inr (charToNat_inj h)

/-- A plain character differs from every character whose code point fails the
plain test. -/
theorem plain_ne {c d : Char} (h : plainChar c = true) (hd : plainCode d.toNat = false) :
    c ≠ d := by
  intro he
  subst he
  rw [plainChar_eq_code, hd] at h
  exact absurd h (by simp)

/-- Plain characters are kept by `normalizeText`. -/
theorem plainChar_kept {c : Char} (h : plainChar c = true) : isKeptChar c = true := by
  rw [plainChar_eq_code] at h
  unfold plainCode at h
  simp only [Bool.or_eq_true, Bool.and_eq_true, decide_eq_true_eq, beq_iff_eq] at h
  apply isKeptChar_iff.mpr
  rcases h with (((⟨h1, h2⟩ | ⟨h1, h2⟩) | ⟨h1, h2⟩) | h)
  · exact Or.inl (isWordChar_iff.mpr (Or.inl ⟨h1, h2⟩))
  · exact Or.inl (isWordChar_iff.mpr (Or.inr (Or.inl ⟨h1, h2⟩)))
  · exact Or.inl (isWordChar_iff.mpr (Or.inr (Or.inr (Or.inl ⟨h1, h2⟩))))
  · exact Or.inr (Or.inl (isWsChar_iff.mpr (Or.inl h)))

/-- A scan whose matcher fails on every suffix is the identity. -/
theorem replAll_eq_self {tr : Str → Option (Str × Str)} : ∀ {l : Str},
    (∀ c r, (c :: r) <:+ l → tr (c :: r) = none) → ∀ n, replAll tr n l = l := by
  intro l
  induction l with
  | nil => intro _ n; cases n <;> rfl
  | cons a rest ih =>
    intro h n
    cases n with
    | zero => rfl
    | succ m =>
      show (match tr (a :: rest) with
        | some (e, r) => e ++ replAll tr m r
        | none => a :: replAll tr m rest) = a :: rest
      rw [h a rest (List.suffix_refl _)]
      rw [ih (fun c r hs => h c r (hs.trans (List.suffix_cons a rest))) m]

/-- A line-anchored scan whose matcher fails on every suffix is the identity. -/
theorem lineAnchor_eq_self {tr : Str → Option (Str × Bool)} : ∀ {l : Str},
    (∀ c r, (c :: r) <:+ l → tr (c :: r) = none) → ∀ n m, lineAnchor tr n m l = l := by
  intro l
  induction l with
  | nil => intro _ n m; cases n <;> rfl
  | cons a rest ih =>
    intro h n m
    cases n with
    | zero => rfl
    | succ k =>
      have htail := ih (fun c r hs => h c r (hs.trans (List.suffix_cons a rest))) k
      show (if m then
          match tr (a :: rest) with
          | some (r, mm) => lineAnchor tr k mm r
          | none => a :: lineAnchor tr k (a == '\n') rest
        else a :: lineAnchor tr k (a == '\n') rest) = a :: rest
      by_cases hm : m
      · rw [if_pos hm, h a rest (List.suffix_refl _)]
        rw [htail]
      · rw [if_neg hm, htail]

/-- `tryBBCode` needs a leading bracket. -/
theorem tryBBCode_none {c : Char} (h : c ≠ '[') (r : Str) : tryBBCode (c :: r) = none := by
  simp [tryBBCode, h]

/-- `tryPair2` needs a leading delimiter. -/
theorem tryPair2_none {d c : Char} (h : c ≠ d) (r : Str) : tryPair2 d (c :: r) = none := by
  cases r <;> simp [tryPair2, h]

/-- `tryPair1` needs a leading delimiter. -/
theorem tryPair1_none {d c : Char} (h : c ≠ d) (r : Str) : tryPair1 d (c :: r) = none := by
  simp [tryPair1, h]

/-- `tryLinkBody` needs a leading bracket. -/
theorem tryLinkBody_none {c : Char} (h : c ≠ '[') (r : Str) : tryLinkBody (c :: r) = none := by
  simp [tryLinkBody, h]

/-- `tryMdImage` needs a leading bang. -/
theorem tryMdImage_none {c : Char} (h : c ≠ '!') (r : Str) : tryMdImage (c :: r) = none := by
  simp [tryMdImage, h]

/-- `tryMdFootnote` needs a leading caret. -/
theorem tryMdFootnote_none {c : Char} (h : c ≠ '^') (r : Str) :
    tryMdFootnote (c :: r) = none := by
  simp [tryMdFootnote, h]

/-- `tryHtmlTag` needs a leading angle bracket. -/
theorem tryHtmlTag_none {c : Char} (h : c ≠ '<') (r : Str) : tryHtmlTag (c :: r) = none := by
  simp [tryHtmlTag, h]

/-- `tryDate` needs a leading bracket. -/
theorem tryDate_none {c : Char} (h : c ≠ '[') (r : Str) : tryDate (c :: r) = none := by
  rcases r with _ | ⟨c1, _ | ⟨c2, _ | ⟨c3, _ | ⟨c4, _ | ⟨c5, r6⟩⟩⟩⟩⟩ <;> simp [tryDate, h]

/-- `tryUpload` needs a colon somewhere in its input. -/
theorem tryUpload_none {l : Str} (h : (':' : Char) ∉ l) : tryUpload l = none := by
  by_cases ht : l.take 9 = uploadLit
  · exfalso
    apply h
    apply List.take_subset 9 l
    rw [ht]
    decide
  · simp [tryUpload, ht]

/-- `tryMdHeading` needs a leading hash. -/
theorem tryMdHeading_none {c : Char} (h : c ≠ '#') (r : Str) :
    tryMdHeading (c :: r) = none := by
  unfold tryMdHeading
  rw [List.takeWhile_cons_of_neg (by simp [h])]
  simp

/-- `tryMdQuote` needs a leading quote marker. -/
theorem tryMdQuote_none {c : Char} (h : c ≠ '>') (r : Str) : tryMdQuote (c :: r) = none := by
  simp [tryMdQuote, h]

/-- `tryMdUList` needs a leading list marker. -/
theorem tryMdUList_none {c : Char} (h1 : c ≠ '*') (h2 : c ≠ '-') (h3 : c ≠ '+') (r : Str) :
    tryMdUList (c :: r) = none := by
  simp [tryMdUList, h1, h2, h3]

/-- `tryMdOList` needs a dot somewhere in its input. -/
theorem tryMdOList_none {l : Str} (h : ('.' : Char) ∉ l) : tryMdOList l = none := by
  unfold tryMdOList
  by_cases hds : l.takeWhile (fun c => '0' ≤ c && c ≤ '9') = []
  · rw [hds]
    simp
  · rw [if_neg hds]
    cases hm : l.drop (l.takeWhile (fun c => '0' ≤ c && c ≤ '9')).length with
    | nil => simp
    | cons x t =>
      have hx : x ∈ l := List.drop_subset _ l (by rw [hm]; simp)
      have hxd : x ≠ '.' := fun he => h (he ▸ hx)
      simp [hxd]

/-- A plain string survives every head-triggered replacement pass. -/
theorem runRepl_id_of_plain {tr : Str → Option (Str × Str)}
    (hnone : ∀ c r, plainChar c = true → tr (c :: r) = none) {l : Str}
    (h : ∀ c ∈ l, plainChar c = true) : runRepl tr l = l :=
  replAll_eq_self
    (fun c r hs => hnone c r (h c (hs.subset (List.mem_cons_self c r)))) l.length

/-- A plain string survives every head-triggered line-anchored pass. -/
theorem runLineAnchor_id_of_plain {tr : Str → Option (Str × Bool)}
    (hnone : ∀ c r, plainChar c = true → tr (c :: r) = none) {l : Str}
    (h : ∀ c ∈ l, plainChar c = true) : runLineAnchor tr l = l :=
  lineAnchor_eq_self
    (fun c r hs => hnone c r (h c (hs.subset (List.mem_cons_self c r)))) l.length true

/-- A character absent from plain strings is absent from a plain string. -/
theorem not_mem_of_plain {l : Str} (h : ∀ c ∈ l, plainChar c = true) {d : Char}
    (hd : plainCode d.toNat = false) : d ∉ l := by
  intro hm
  have := h d hm
  rw [plainChar_eq_code, hd] at this
  exact absurd this (by simp)

/-- `stripEdgePipes` is the identity on pipe-free strings. -/
theorem stripEdgePipes_id {l : Str} (h : ('|' : Char) ∉ l) : stripEdgePipes l = l := by
  unfold stripEdgePipes
  have h1 : ¬(l.head? = some '|') := by
    intro hh
    exact h (List.mem_of_mem_head? hh)
  rw [if_neg h1]
  have h2 : ¬(l.getLast? = some '|') := by
    intro hh
    exact h (List.mem_of_mem_getLast? hh)
  rw [if_neg h2]

/-- All replacement passes of `stripAllSyntax` leave a plain string unchanged;
only the final trim acts.  (The `[b]`/`[/b]` wrapper is handled separately by
`runRepl_bbcode_wrapped`.) -/
theorem stripPasses_id_of_plain {l : Str} (h : ∀ c ∈ l, plainChar c = true) :
    runRepl (tryPair2 '*') l = l ∧ runRepl (tryPair1 '*') l = l ∧
    runRepl (tryPair2 '~') l = l ∧ runRepl (tryPair1 (Char.ofNat 96)) l = l ∧
    runRepl tryLinkBody l = l ∧ runRepl tryMdImage l = l ∧
    runLineAnchor tryMdHeading l = l ∧ runLineAnchor tryMdQuote l = l ∧
    runLineAnchor tryMdUList l = l ∧ runLineAnchor tryMdOList l = l ∧
    runRepl tryMdFootnote l = l ∧ runRepl tryHtmlTag l = l ∧
    runRepl tryUpload l = l ∧ runRepl tryDate l = l ∧
    stripEdgePipes l = l ∧ l.map (fun c => if c == '|' then ' ' else c) = l := by
  refine ⟨?_, ?_, ?_, ?_, ?_, ?_, ?_, ?_, ?_, ?_, ?_, ?_, ?_, ?_, ?_, ?_⟩
  · exact runRepl_id_of_plain
      (fun c r hc => tryPair2_none (plain_ne hc (by decide)) r) h
  · exact runRepl_id_of_plain
      (fun c r hc => tryPair1_none (plain_ne hc (by decide)) r) h
  · exact runRepl_id_of_plain
      (fun c r hc => tryPair2_none (plain_ne hc (by decide)) r) h
  · exact runRepl_id_of_plain
      (fun c r hc => tryPair1_none (plain_ne hc (by decide)) r) h
  · exact runRepl_id_of_plain
      (fun c r hc => tryLinkBody_none (plain_ne hc (by decide)) r) h
  · exact runRepl_id_of_plain
      (fun c r hc => tryMdImage_none (plain_ne hc (by decide)) r) h
  · exact runLineAnchor_id_of_plain
      (fun c r hc => tryMdHeading_none (plain_ne hc (by decide)) r) h
  · exact runLineAnchor_id_of_plain
      (fun c r hc => tryMdQuote_none (plain_ne hc (by decide)) r) h
  · exact runLineAnchor_id_of_plain
      (fun c r hc => tryMdUList_none (plain_ne hc (by decide))
        (plain_ne hc (by decide)) (plain_ne hc (by decide)) r) h
  · exact lineAnchor_eq_self
      (fun c r hs => tryMdOList_none
        (fun hm => not_mem_of_plain h (by decide)
          (hs.subset hm))) l.length true
  · exact runRepl_id_of_plain
      (fun c r hc => tryMdFootnote_none (plain_ne hc (by decide)) r) h
  · exact runRepl_id_of_plain
      (fun c r hc => tryHtmlTag_none (plain_ne hc (by decide)) r) h
  · exact replAll_eq_self
      (fun c r hs => tryUpload_none
        (fun hm => not_mem_of_plain h (by decide) (hs.subset hm))) l.length
  · exact runRepl_id_of_plain
      (fun c r hc => tryDate_none (plain_ne hc (by decide)) r) h
  · exact stripEdgePipes_id (not_mem_of_plain h (by decide))
  · exact map_eq_self_of_fix (fun c hc => by
      rw [if_neg (by simpa using plain_ne (h c hc) (by decide))])

/-- The scanner consumes an opening `[b]` in one match. -/
theorem tryBBCode_open (rest : Str) :
    tryBBCode ('[' :: 'b' :: ']' :: rest) = some ([], rest) := rfl

/-- The scanner consumes a closing `[/b]` in one match. -/
theorem tryBBCode_close (rest : Str) :
    tryBBCode ('[' :: '/' :: 'b' :: ']' :: rest) = some ([], rest) := rfl

/-- A scan of the empty string emits nothing. -/
theorem replAll_nil (tr : Str → Option (Str × Str)) (n : Nat) : replAll tr n [] = [] := by
  cases n <;> rfl

/-- Scanning plain text followed by `[/b]` removes exactly the closing tag. -/
theorem replAll_bbcode_tail : ∀ (X : Str) (n : Nat), (∀ c ∈ X, plainChar c = true) →
    X.length + 1 ≤ n →
    replAll tryBBCode n (X ++ ('[' :: '/' :: 'b' :: ']' :: [])) = X := by
  intro X
  induction X with
  | nil =>
    intro n _ hn
    obtain ⟨m, rfl⟩ : ∃ m, n = m + 1 := ⟨n - 1, by omega⟩
    show (match tryBBCode ('[' :: '/' :: 'b' :: ']' :: []) with
      | some (e, r) => e ++ replAll tryBBCode m r
      | none => '[' :: replAll tryBBCode m ('/' :: 'b' :: ']' :: [])) = []
    rw [tryBBCode_close]
    show ([] : Str) ++ replAll tryBBCode m [] = []
    rw [replAll_nil]
    rfl
  | cons c X' ih =>
    intro n h hn
    obtain ⟨m, rfl⟩ : ∃ m, n = m + 1 := ⟨n - 1, by omega⟩
    show (match tryBBCode (c :: (X' ++ ('[' :: '/' :: 'b' :: ']' :: []))) with
      | some (e, r) => e ++ replAll tryBBCode m r
      | none => c :: replAll tryBBCode m (X' ++ ('[' :: '/' :: 'b' :: ']' :: []))) = c :: X'
    rw [tryBBCode_none (plain_ne (h c (by simp)) (by decide)) _]
    have hm : X'.length + 1 ≤ m := by simp at hn; omega
    show c :: replAll tryBBCode m (X' ++ ('[' :: '/' :: 'b' :: ']' :: [])) = c :: X'
    rw [ih m (fun d hd => h d (by simp [hd])) hm]

/-- The BBCode pass on `[b]X[/b]` with plain `X` strips exactly the two tags. -/
theorem runRepl_bbcode_wrapped (X : Str) (h : ∀ c ∈ X, plainChar c = true) :
    runRepl tryBBCode
      ('[' :: 'b' :: ']' :: (X ++ ('[' :: '/' :: 'b' :: ']' :: []))) = X := by
  unfold runRepl
  have hlen : ('[' :: 'b' :: ']' :: (X ++ ('[' :: '/' :: 'b' :: ']' :: []))).length
      = X.length + 7 := by
    simp [List.length_append]
  rw [hlen]
  show (match tryBBCode ('[' :: 'b' :: ']' :: (X ++ ('[' :: '/' :: 'b' :: ']' :: []))) with
    | some (e, r) => e ++ replAll tryBBCode (X.length + 6) r
    | none => '[' :: replAll tryBBCode (X.length + 6)
        ('b' :: ']' :: (X ++ ('[' :: '/' :: 'b' :: ']' :: [])))) = X
  rw [tryBBCode_open]
  show ([] : Str) ++ replAll tryBBCode (X.length + 6) (X ++ ('[' :: '/' :: 'b' :: ']' :: [])) = X
  rw [List.nil_append, replAll_bbcode_tail X (X.length + 6) h (by omega)]

/-- Collapsing in skipping mode first drops the leading whitespace run. -/
theorem collapseAux_true_eq : ∀ (r : Str),
    collapseAux true r = collapseAux false (r.dropWhile isWsChar) := by
  intro r
  induction r with
  | nil => rfl
  | cons a t ih =>
    by_cases hw : isWsChar a
    · rw [show collapseAux true (a :: t) = collapseAux true t from by simp [collapseAux, hw],
        List.dropWhile_cons_of_pos hw, ih]
    · rw [List.dropWhile_cons_of_neg (by simpa using hw)]
      simp [collapseAux, hw]

/-- Collapsing an all-whitespace string in skipping mode yields nothing. -/
theorem collapseAux_true_allWs : ∀ {w : Str}, (∀ c ∈ w, isWsChar c = true) →
    collapseAux true w = [] := by
  intro w
  induction w with
  | nil => intro _; rfl
  | cons a t ih =>
    intro h
    rw [show collapseAux true (a :: t) = collapseAux true t from by
      simp [collapseAux, h a (by simp)]]
    exact ih (fun c hc => h c (by simp [hc]))

/-- Collapsing a nonempty all-whitespace string yields a single space. -/
theorem collapseWs_allWs {w : Str} (hne : w ≠ []) (h : ∀ c ∈ w, isWsChar c = true) :
    collapseWs w = [' '] := by
  cases w with
  | nil => exact absurd rfl hne
  | cons a t =>
    unfold collapseWs
    rw [show collapseAux false (a :: t) = ' ' :: collapseAux true t from by
      simp [collapseAux, h a (by simp)]]
    rw [collapseAux_true_allWs (fun c hc => h c (by simp [hc]))]

/-- A leading space does not change the trim. -/
theorem jsTrim_cons_space (z : Str) : jsTrim (' ' :: z) = jsTrim z := by
  unfold jsTrim trimLeft
  rw [List.dropWhile_cons_of_pos (by decide)]

/-- A trailing space does not change the right trim. -/
theorem trimRight_append_space (u : Str) : trimRight (u ++ [' ']) = trimRight u := by
  unfold trimRight
  rw [List.reverse_append]
  show (List.dropWhile isWsChar (' ' :: u.reverse)).reverse = _
  rw [List.dropWhile_cons_of_pos (by decide)]

/-- A trailing space does not change the trim. -/
theorem jsTrim_append_space (y : Str) : jsTrim (y ++ [' ']) = jsTrim y := by
  unfold jsTrim trimLeft
  rw [List.dropWhile_append]
  by_cases he : (List.dropWhile isWsChar y).isEmpty
  · rw [if_pos he]
    rw [List.isEmpty_iff] at he
    rw [he]
    rfl
  · rw [if_neg he]
    exact trimRight_append_space _

/-- Whitespace mode carried to the end of a string. -/
def endMode (m : Bool) : Str → Bool
  | [] => m
  | c :: r => endMode (isWsChar c) r

/-- `endMode` is determined by the last character. -/
theorem endMode_eq : ∀ (a : Str) (m : Bool),
    endMode m a = (match a.getLast? with | none => m | some c => isWsChar c) := by
  intro a
  induction a with
  | nil => intro m; rfl
  | cons c r ih =>
    intro m
    show endMode (isWsChar c) r = _
    rw [ih (isWsChar c)]
    cases r with
    | nil => rfl
    | cons d t =>
      rw [List.getLast?_cons_cons]
      cases hg : (d :: t).getLast? with
      | none => exact absurd (List.getLast?_eq_none_iff.mp hg) (by simp)
      | some x => rfl

/-- Collapsing distributes over append, with the mode carried across. -/
theorem collapseAux_append : ∀ (a : Str) (m : Bool) (b : Str),
    collapseAux m (a ++ b) = collapseAux m a ++ collapseAux (endMode m a) b := by
  intro a
  induction a with
  | nil => intro m b; rfl
  | cons c r ih =>
    intro m b
    by_cases hw : isWsChar c
    · by_cases hm : m
      · rw [show (c :: r) ++ b = c :: (r ++ b) from rfl,
          show collapseAux m (c :: (r ++ b)) = collapseAux true (r ++ b) from by
            simp [collapseAux, hw, hm],
          show collapseAux m (c :: r) = collapseAux true r from by simp [collapseAux, hw, hm],
          ih true b,
          show endMode m (c :: r) = endMode (isWsChar c) r from rfl]
        simp [hw]
      · rw [show (c :: r) ++ b = c :: (r ++ b) from rfl,
          show collapseAux m (c :: (r ++ b)) = ' ' :: collapseAux true (r ++ b) from by
            simp [collapseAux, hw, hm],
          show collapseAux m (c :: r) = ' ' :: collapseAux true r from by
            simp [collapseAux, hw, hm],
          ih true b,
          show endMode m (c :: r) = endMode (isWsChar c) r from rfl]
        simp [hw]
    · rw [show (c :: r) ++ b = c :: (r ++ b) from rfl,
        show collapseAux m (c :: (r ++ b)) = c :: collapseAux false (r ++ b) from by
          simp [collapseAux, hw],
        show collapseAux m (c :: r) = c :: collapseAux false r from by simp [collapseAux, hw],
        ih false b,
        show endMode m (c :: r) = endMode (isWsChar c) r from rfl]
      simp [hw]

/-- The right trim is empty or ends in a non-whitespace character. -/
theorem trimRight_last (l : Str) :
    trimRight l = [] ∨ ∃ c, (trimRight l).getLast? = some c ∧ isWsChar c = false := by
  unfold trimRight
  cases hd : List.dropWhile isWsChar l.reverse with
  | nil => exact Or.inl rfl
  | cons c t =>
    right
    refine ⟨c, ?_, ?_⟩
    · rw [List.getLast?_reverse]
      rfl
    · have := List.head?_dropWhile_not isWsChar l.reverse
      rw [hd] at this
      exact this

/-- The guard-free core of `normalizeText` after lowercasing. -/
def normCore (l : Str) : Str := jsTrim ((collapseWs l).filter isKeptChar)

/-- `normCore` ignores leading whitespace. -/
theorem normCore_trimLeft (m : Str) : normCore (trimLeft m) = normCore m := by
  cases m with
  | nil => rfl
  | cons c r =>
    by_cases hw : isWsChar c
    · have h1 : trimLeft (c :: r) = r.dropWhile isWsChar := by
        unfold trimLeft
        rw [List.dropWhile_cons_of_pos hw]
      have h2 : collapseWs (c :: r) = ' ' :: collapseWs (r.dropWhile isWsChar) := by
        unfold collapseWs
        rw [show collapseAux false (c :: r) = ' ' :: collapseAux true r from by
          simp [collapseAux, hw], collapseAux_true_eq]
      unfold normCore
      rw [h1, h2, List.filter_cons_of_pos isKeptChar_space, jsTrim_cons_space]
    · rw [show trimLeft (c :: r) = c :: r from by
        unfold trimLeft
        rw [List.dropWhile_cons_of_neg (by simpa using hw)]]

/-- `normCore` ignores trailing whitespace. -/
theorem normCore_trimRight (m : Str) : normCore (trimRight m) = normCore m := by
  have hdec := trimRight_decomp m
  obtain ⟨w, hw⟩ : ∃ w, (List.takeWhile isWsChar m.reverse).reverse = w := ⟨_, rfl⟩
  rw [hw] at hdec
  have hwall : ∀ c ∈ w, isWsChar c = true := by
    intro c hc
    rw [← hw] at hc
    exact List.mem_takeWhile_imp (List.mem_reverse.mp hc)
  by_cases hwe : w = []
  · rw [hwe, List.append_nil] at hdec
    rw [← hdec]
  · have hmode : endMode false (trimRight m) = false := by
      rw [endMode_eq]
      rcases trimRight_last m with h0 | ⟨c, hc, hcw⟩
      · rw [h0]
        rfl
      · rw [hc]
        exact hcw
    have hcol : collapseWs m = collapseWs (trimRight m) ++ [' '] := by
      conv_lhs => rw [hdec]
      unfold collapseWs
      rw [collapseAux_append, hmode]
      rw [show collapseAux false w = [' '] from collapseWs_allWs hwe hwall]
    unfold normCore
    rw [hcol, List.filter_append]
    rw [show List.filter isKeptChar [' '] = [' '] from by decide]
    rw [jsTrim_append_space]

/-- An empty trim means an all-whitespace string. -/
theorem jsTrim_eq_nil_allWs {l : Str} (h : jsTrim l = []) : ∀ c ∈ l, isWsChar c = true := by
  intro c hc
  unfold jsTrim trimRight at h
  rw [List.reverse_eq_nil_iff] at h
  have hall : ∀ x ∈ (trimLeft l).reverse, isWsChar x = true := List.dropWhile_eq_nil_iff.mp h
  have htail : ∀ x ∈ trimLeft l, isWsChar x = true := fun x hx =>
    hall x (List.mem_reverse.mpr hx)
  rcases List.mem_append.mp (by
      rw [List.takeWhile_append_dropWhile isWsChar l]
      exact hc :
      c ∈ List.takeWhile isWsChar l ++ List.dropWhile isWsChar l) with hm | hm
  · exact List.mem_takeWhile_imp hm
  · exact htail c hm

/-- `normalizeText` is invariant under a preliminary JS `trim`. -/
theorem normalizeText_jsTrim (l : Str) : normalizeText (jsTrim l) = normalizeText l := by
  by_cases hl : l = []
  · rw [hl]
    rfl
  · by_cases hjt : jsTrim l = []
    · rw [hjt]
      have hws : ∀ c ∈ l, isWsChar c = true := jsTrim_eq_nil_allWs hjt
      have hmws : ∀ c ∈ l.map jsToLower, isWsChar c = true := by
        intro c hc
        obtain ⟨d, hd, rfl⟩ := List.mem_map.mp hc
        rw [isWsChar_jsToLower]
        exact hws d hd
      have hmne : l.map jsToLower ≠ [] := by
        intro he
        exact hl (List.map_eq_nil_iff.mp he)
      unfold normalizeText
      rw [if_neg hl, if_pos rfl]
      rw [collapseWs_allWs hmne hmws]
      rw [show List.filter isKeptChar [' '] = [' '] from by decide]
      rfl
    · unfold normalizeText
      rw [if_neg hl, if_neg hjt]
      show normCore ((jsTrim l).map jsToLower) = normCore (l.map jsToLower)
      rw [← jsTrim_map_jsToLower]
      show normCore (trimRight (trimLeft (l.map jsToLower))) = _
      rw [normCore_trimRight, normCore_trimLeft]

/-- C6 (amended): for plain `X` (ASCII letters, digits and spaces), stripping
`"[b]" ++ X ++ "[/b]"` and normalizing yields exactly `normalizeText X`: the
BBCode pass removes the two tags, every other pass leaves the plain text
unchanged, and the final trim is absorbed by normalization.  For arbitrary `X`
the property fails, as the pipe counterexample above shows. -/
theorem stripTag_normalize_plain (X : Str) (h : ∀ c ∈ X, plainChar c = true) :
    normalizeText (stripAllSyntax ("[b]".toList ++ X ++ "[/b]".toList))
      = normalizeText X := by
  have hsyn : "[b]".toList ++ X ++ "[/b]".toList
      = '[' :: 'b' :: ']' :: (X ++ ('[' :: '/' :: 'b' :: ']' :: [])) := rfl
  obtain ⟨p1, p2, p3, p4, p5, p6, p7, p8, p9, p10, p11, p12, p13, p14, p15, p16⟩ :=
    stripPasses_id_of_plain h
  have hstrip : stripAllSyntax ("[b]".toList ++ X ++ "[/b]".toList) = jsTrim X := by
    rw [hsyn]
    unfold stripAllSyntax
    rw [if_neg (by simp)]
    rw [runRepl_bbcode_wrapped X h]
    simp only [p1, p2, p3, p4, p5, p6, p7, p8, p9, p10, p11, p12, p13, p14, p15, p16]
  rw [hstrip, normalizeText_jsTrim]

/-- Witness: the tag-stripping property at a concrete plain string. -/
theorem stripTag_normalize_plain_witness :
    (∀ c ∈ "Bold Text 42".toList, plainChar c = true) ∧
    normalizeText (stripAllSyntax ("[b]".toList ++ "Bold Text 42".toList ++ "[/b]".toList))
      = normalizeText "Bold Text 42".toList :=
  ⟨by decide, stripTag_normalize_plain "Bold Text 42".toList (by decide)⟩
